import Mathlib

/-!
Verification of the free-space management algorithm of `src/mm.c`
(an implicit-list malloc with boundary tags and a next-fit cursor).

Shallow embedding.  The C code manages the heap as a sequence of blocks,
each carrying a header and a footer word encoding `(size, allocated)`:

  byte 0..3    alignment padding
  byte 4..7    prologue ("start") header  HF(8, 1)
  byte 8..11   prologue footer            HF(8, 1)    (heapL points at byte 8)
  byte 12..    real blocks, back to back; a block whose payload pointer is
               `p` occupies bytes [p-4, p-4+size), its header at p-4 and its
               footer at p+size-8
  last 4 bytes epilogue ("end") header    HF(0, 1)

We embed this block sequence directly as a `List Block` (the real blocks
between the two sentinels, in address order), since the header and footer
of a block always carry the same `(size, alloc)` value in the code outside
of the updates themselves.  Addresses are recovered as prefix sums: the
payload address of the i-th real block is 16 plus the sizes of the blocks
before it, the prologue's payload address is 8 (`heapL`), and the epilogue
header sits at `16 + (sum of all block sizes) - 4`.  The next-fit cursor
`trav` is kept as a payload address, exactly as in the C code.

Payload bytes live in a separate byte-addressed map `mem`; the allocator
itself never reads or writes payload bytes except in `mm_realloc`'s
`memcpy`, which is modelled as a byte copy on `mem`.  (The header/footer
words themselves are kept in the block list, not in `mem`.)

The memory provider (`mem_sbrk` of memlib.c, which is not part of this
repository's sources) is modelled from the spec: a monotonic grow
primitive that hands out `granted` bytes so far and fails exactly when
the request would exceed a fixed capacity `cap`.
-/

set_option maxHeartbeats 1600000

namespace MM

/-- A heap block: its total size in bytes (header + payload + footer, the
value stored in the boundary-tag words, `GET_SIZE`) and its allocated flag
(`GET_ALLOC`). -/
structure Block where
  size : Nat
  alloc : Bool
deriving DecidableEq

/-- The start sentinel: `HF(DWORD, 1)`, an allocated block of size 8 whose
payload address is `heapL = 8` (written by `mm_init`, lines 196-197). -/
def prologue : Block := ⟨8, true⟩

/-- Allocator state: the real blocks between the prologue and the epilogue
in address order, the next-fit cursor `trav` (a payload address), the total
bytes obtained from the provider so far, the provider capacity, and the
payload memory (byte address to byte value). -/
structure Heap where
  blocks : List Block
  trav : Nat
  granted : Nat
  cap : Nat
  mem : Nat → Nat

/-- Total size in bytes of a run of blocks. -/
def sumSizes (bs : List Block) : Nat := (bs.map Block.size).sum

/-- Annotate each block with its payload address, the first one sitting at
address `a`. -/
def annot : Nat → List Block → List (Nat × Block)
  | _, [] => []
  | a, b :: bs => (a, b) :: annot (a + b.size) bs

/-- The payload addresses of the real blocks (the first real block's
payload is at byte 16). -/
def startList (bs : List Block) : List Nat := (annot 16 bs).map Prod.fst

/-- The block sequence the `fit` loops traverse: the prologue (at `heapL =
8`) followed by the real blocks; the epilogue (size 0) terminates the scan
and is never a candidate. -/
def entries (bs : List Block) : List (Nat × Block) := (8, prologue) :: annot 16 bs

/-- Line 109 of `coalesce`:
`if ((trav > (char *)ptr) && (trav < NEXT(ptr))) trav = ptr;` —
relocate the cursor to the merged block's start `a` when it points strictly
inside the merged block's span (`msize` = merged size, so `NEXT(ptr) =
a + msize`). -/
def travAdj (trav a msize : Nat) : Nat :=
  if a < trav ∧ trav < a + msize then a else trav

/-- `coalesce` (mm.c lines 75-112) at the block `b` whose left neighbours
are `L` and right neighbours are `R` (so `b`'s payload address is
`16 + sumSizes L`).  `prev_alloc` is read through the previous block's
footer (the prologue, always allocated, when `L = []`) and `next_alloc`
through the next header (the epilogue, always allocated, when `R = []`).
Returns the new block list, the payload address of the resulting block
(the value `coalesce` returns), and the new cursor; in the no-merge case
the C function returns before the cursor check of line 109. -/
def coalesce (L : List Block) (b : Block) (R : List Block) (trav : Nat) :
    List Block × Nat × Nat :=
  let prev_alloc := (L.getLast?.map Block.alloc).getD true
  let next_alloc := (R.head?.map Block.alloc).getD true
  if prev_alloc && next_alloc then
    (L ++ b :: R, 16 + sumSizes L, trav)
  else if !prev_alloc && next_alloc then
    let p := L.getLast?.getD prologue
    let m : Block := ⟨p.size + b.size, false⟩
    let a := 16 + sumSizes L.dropLast
    (L.dropLast ++ m :: R, a, travAdj trav a m.size)
  else if prev_alloc && !next_alloc then
    let n := R.head?.getD prologue
    let m : Block := ⟨b.size + n.size, false⟩
    let a := 16 + sumSizes L
    (L ++ m :: R.tail, a, travAdj trav a m.size)
  else
    let p := L.getLast?.getD prologue
    let n := R.head?.getD prologue
    let m : Block := ⟨p.size + b.size + n.size, false⟩
    let a := 16 + sumSizes L.dropLast
    (L.dropLast ++ m :: R.tail, a, travAdj trav a m.size)

/-- `grow_heap` (lines 121-135): round the word count up to an even number
of 4-byte words, ask the provider for that many bytes (`mem_sbrk`,
modelled from the spec as failing exactly when the capacity would be
exceeded), lay a free block over the new bytes (the epilogue relocation is
implicit in the list model) and coalesce it with the previous top block.
Returns the grown heap and the payload address of the resulting block, or
`none` on provider failure. -/
def grow_heap (h : Heap) (words : Nat) : Option (Heap × Nat) :=
  let size := if words % 2 = 1 then (words + 1) * 4 else words * 4
  if h.granted + size > h.cap then none
  else
    let r := coalesce h.blocks ⟨size, false⟩ [] h.trav
    some ({ h with blocks := r.1, trav := r.2.2, granted := h.granted + size }, r.2.1)

/-- Index of the block whose payload address is `t`, scanning a block run
whose first payload address is `s` (the list-model counterpart of
following `NEXT` from the first block). -/
def idxFrom (s t : Nat) : List Block → Option Nat
  | [] => none
  | b :: bs => if s = t then some 0 else (idxFrom (s + b.size) t bs).map (· + 1)

/-- `put` (lines 166-181) on the block at index `i`: if the leftover after
carving out `adj` bytes is at least `2*DWORD = 16` bytes, split (allocated
part first, remainder becomes a free block); otherwise allocate the whole
block.  Callers guarantee `adj ≤ csize` (the block was found by `fit` or
freshly grown big enough), so the `csize - adj` of the C size_t
subtraction is the truncated Nat subtraction. -/
def put (bs : List Block) (i adj : Nat) : List Block :=
  let csize := (bs.getD i prologue).size
  if 2 * 8 ≤ csize - adj then
    bs.take i ++ ⟨adj, true⟩ :: ⟨csize - adj, false⟩ :: bs.drop (i + 1)
  else
    bs.take i ++ ⟨csize, true⟩ :: bs.drop (i + 1)

/-- `put` addressed by payload address (the C code passes the block
pointer); `fit` and `grow_heap` only ever hand back genuine block starts,
so the `none` branch is unreachable in the allocator. -/
def putAt (bs : List Block) (a adj : Nat) : List Block :=
  match idxFrom 16 a bs with
  | some i => put bs i adj
  | none => bs

/-- The body shared by both scan loops of `fit` (lines 150-157): return
the first traversed block that is free and large enough. -/
def fitLoop (adj : Nat) : List (Nat × Block) → Option Nat
  | [] => none
  | e :: es => if !e.2.alloc && decide (adj ≤ e.2.size) then some e.1 else fitLoop adj es

/-- Where the second `fit` loop leaves `trav` when it finds nothing: it
walks from `heapL` and stops at the first block start that is not below
`origtrav` (under the cursor invariant this is `origtrav` itself); `hend`
is the epilogue position, where the walk would end up otherwise. -/
def stopAddr (es : List (Nat × Block)) (hend t : Nat) : Nat :=
  match es.find? (fun e => decide (t ≤ e.1)) with
  | some e => e.1
  | none => hend

/-- `fit` (lines 144-160), next-fit search: scan from the cursor to the
epilogue, then wrap and scan from `heapL` up to (excluding) the original
cursor.  Returns the found payload address (which the loops also leave in
`trav`) or `none`, together with the final cursor value. -/
def fit (h : Heap) (adj : Nat) : Option Nat × Nat :=
  let es := entries h.blocks
  match fitLoop adj (es.dropWhile (fun e => decide (e.1 < h.trav))) with
  | some a => (some a, a)
  | none =>
    match fitLoop adj (es.takeWhile (fun e => decide (e.1 < h.trav))) with
    | some a => (some a, a)
    | none => (none, stopAddr es (16 + sumSizes h.blocks) h.trav)

/-- `CHUNKSIZE = (1<<12)`. -/
def CHUNKSIZE : Nat := 2 ^ 12

/-- The fit search as the spec words it (the reference side of the
refinement for the next-fit claim): scan the real blocks forward from the
cursor toward the end sentinel, then wrap and scan the real blocks
strictly before the original cursor, returning the first free block whose
size is at least the request, and NULL when none is found. -/
def fitSpec (h : Heap) (adj : Nat) : Option Nat :=
  match ((annot 16 h.blocks).dropWhile (fun e => decide (e.1 < h.trav)) ++
      (annot 16 h.blocks).takeWhile (fun e => decide (e.1 < h.trav))).find?
      (fun e => !e.2.alloc && decide (adj ≤ e.2.size)) with
  | some e => some e.1
  | none => none

/-- The adjusted block size of `mm_malloc` (lines 223-224):
`2*DWORD` for requests of at most `DWORD` bytes, otherwise
`DWORD * ((size + DWORD + (DWORD-1)) / DWORD)` computed in `size_t`
arithmetic, hence the explicit wrap modulo `2^64` of the sum. -/
def adjSize (size : Nat) : Nat :=
  if size ≤ 8 then 2 * 8
  else 8 * (((size + 8 + (8 - 1)) % 2 ^ 64) / 8)

/-- `mm_malloc` (lines 214-235) on an initialized heap: zero-size requests
return `NULL`; otherwise find a fit for the adjusted size and place the
request there, or grow the heap by `max(adjusted, CHUNKSIZE)` bytes
(passed to `grow_heap` as a count of 4-byte words), propagate `NULL` on
growth failure, and place into the grown block.  Returns the payload
address (`none` for `NULL`) and the new state. -/
def mm_malloc (h : Heap) (size : Nat) : Option Nat × Heap :=
  if size = 0 then (none, h)
  else
    let adj := adjSize size
    let f := fit h adj
    let h1 := { h with trav := f.2 }
    match f.1 with
    | some a => (some a, { h1 with blocks := putAt h1.blocks a adj })
    | none =>
      let growsize := if adj > CHUNKSIZE then adj else CHUNKSIZE
      match grow_heap h1 (growsize / 4) with
      | none => (none, h1)
      | some r => (some r.2, { r.1 with blocks := putAt r.1.blocks r.2 adj })

/-- `mm_free` (lines 244-254): `NULL` is a no-op; otherwise mark the
block's header/footer free (same size) and coalesce.  A pointer that is
not a live block start is undefined behaviour in C (mm.c performs no
validation); such a call is modelled as a no-op and never arises in the
traces considered below. -/
def mm_free (h : Heap) (ptr : Nat) : Heap :=
  if ptr = 0 then h
  else
    match idxFrom 16 ptr h.blocks with
    | none => h
    | some i =>
      let size := (h.blocks.getD i prologue).size
      let r := coalesce (h.blocks.take i) ⟨size, false⟩ (h.blocks.drop (i + 1)) h.trav
      { h with blocks := r.1, trav := r.2.2 }

/-- `memcpy(dst, src, n)` as a byte copy on the payload memory. -/
def memcpy (m : Nat → Nat) (dst src n : Nat) : Nat → Nat :=
  fun x => if dst ≤ x ∧ x < dst + n then m (src + (x - dst)) else m x

/-- `GET_SIZE(HEAD(ptr))` read through the block list (0 when `ptr` is not
a block start, which is undefined behaviour in C). -/
def sizeAt (bs : List Block) (a : Nat) : Nat :=
  match idxFrom 16 a bs with
  | some i => (bs.getD i prologue).size
  | none => 0

/-- The block at payload address `a`, if any. -/
def blockAt (bs : List Block) (a : Nat) : Option Block :=
  (idxFrom 16 a bs).map fun i => bs.getD i prologue

/-- Lines 283-284 of `mm_realloc`: the number of bytes `memcpy` copies —
`oldsize = GET_SIZE(HEAD(ptr)); if (size < oldsize) oldsize = size;`.
Note that `oldsize` is the old block's TOTAL size (header and footer
included), not its usable payload size. -/
def copySize (oldsize size : Nat) : Nat := if size < oldsize then size else oldsize

/-- `mm_realloc` (lines 259-291): `size == 0` frees and returns `NULL`;
`ptr == NULL` is `mm_malloc`; otherwise allocate a new block, return
`NULL` (heap as left by the failed `mm_malloc`) if that fails, else copy
`copySize` bytes from the old payload address, free the old block and
return the new address. -/
def mm_realloc (h : Heap) (ptr size : Nat) : Option Nat × Heap :=
  if size = 0 then (none, mm_free h ptr)
  else if ptr = 0 then mm_malloc h size
  else
    match mm_malloc h size with
    | (none, h1) => (none, h1)
    | (some q, h1) =>
      let oldsize := sizeAt h1.blocks ptr
      let n := copySize oldsize size
      let h2 := { h1 with mem := memcpy h1.mem q ptr n }
      (some q, mm_free h2 ptr)

/-- `mm_init` (lines 191-206) with a provider of capacity `cap`
(modelled from the spec): obtain the 16-byte skeleton (padding, prologue
header/footer, epilogue header), set the cursor to `heapL = 8`, then grow
by `CHUNKSIZE` bytes; `none` models the `-1` failure return.  Fresh
provider memory has unspecified contents; its payload bytes are modelled
as 0. -/
def mm_init (cap : Nat) : Option Heap :=
  if cap < 16 then none
  else
    let h0 : Heap := ⟨[], 8, 16, cap, fun _ => 0⟩
    match grow_heap h0 (CHUNKSIZE / 4) with
    | none => none
    | some r => some r.1

/-- The application writing `n` bytes into a payload it owns (the heap is
just memory to the caller; this is not an allocator operation). -/
def poke (h : Heap) (a n : Nat) (f : Nat → Nat) : Heap :=
  { h with mem := fun x => if a ≤ x ∧ x < a + n then f (x - a) else h.mem x }

/-! ### Structural invariants -/

/-- Every block has at least the minimum size `2*DWORD = 16` and a size
that is a multiple of the alignment unit `DWORD = 8`. -/
def sizesOK (bs : List Block) : Prop := ∀ b ∈ bs, 16 ≤ b.size ∧ b.size % 8 = 0

/-- Two neighbouring blocks are never both free. -/
def okp (x y : Block) : Prop := x.alloc = true ∨ y.alloc = true

/-- A forward scan of the block list finds no two consecutive free
blocks. -/
def noAdjFree (bs : List Block) : Prop := List.Chain' okp bs

/-- Executable form of `noAdjFree`, used to evaluate the invariant on
concrete heaps. -/
def noAdjFreeB : List Block → Bool
  | [] => true
  | [_] => true
  | x :: y :: t => (x.alloc || y.alloc) && noAdjFreeB (y :: t)

/-- The cursor points at the prologue (`heapL = 8`, its initial value) or
at some real block's payload. -/
def travOK (h : Heap) : Prop := h.trav = 8 ∨ h.trav ∈ startList h.blocks

/-- The full structural invariant: block sizes are well formed, no two
adjacent free blocks, the cursor is a valid block position, and the bytes
granted by the provider are exactly the 16-byte skeleton plus the blocks. -/
def Inv (h : Heap) : Prop :=
  sizesOK h.blocks ∧ noAdjFree h.blocks ∧ travOK h ∧
    h.granted = 16 + sumSizes h.blocks

/-- The block at payload address `a` exists, is allocated and has size
`s`. -/
def allocatedAt (h : Heap) (a s : Nat) : Prop :=
  ∃ L R, h.blocks = L ++ (⟨s, true⟩ : Block) :: R ∧ a = 16 + sumSizes L

/-- A legitimate argument for `mm_free`/`mm_realloc`: `NULL` or a live
allocated block start (anything else is undefined behaviour per the
spec). -/
def freeableB (h : Heap) (p : Nat) : Bool :=
  p == 0 ||
    (match idxFrom 16 p h.blocks with
     | some i => (h.blocks.getD i prologue).alloc
     | none => false)

/-- Propositional form of `freeableB`. -/
def freeable (h : Heap) (p : Nat) : Prop := freeableB h p = true

instance (bs : List Block) : Decidable (sizesOK bs) :=
  inferInstanceAs (Decidable (∀ b ∈ bs, 16 ≤ b.size ∧ b.size % 8 = 0))

instance (x y : Block) : Decidable (okp x y) :=
  inferInstanceAs (Decidable (x.alloc = true ∨ y.alloc = true))

theorem noAdjFreeB_iff : ∀ bs : List Block, noAdjFree bs ↔ noAdjFreeB bs = true
  | [] => by
    simp [noAdjFree, noAdjFreeB]
  | [x] => by
    simp [noAdjFree, noAdjFreeB]
  | x :: y :: t => by
    rw [noAdjFree, List.chain'_cons]
    rw [show noAdjFreeB (x :: y :: t) = ((x.alloc || y.alloc) && noAdjFreeB (y :: t))
      from rfl]
    rw [Bool.and_eq_true, Bool.or_eq_true]
    have ih := noAdjFreeB_iff (y :: t)
    rw [noAdjFree] at ih
    constructor
    · rintro ⟨h1, h2⟩
      exact ⟨h1, ih.mp h2⟩
    · rintro ⟨h1, h2⟩
      exact ⟨h1, ih.mpr h2⟩

instance (bs : List Block) : Decidable (noAdjFree bs) :=
  decidable_of_iff (noAdjFreeB bs = true) (noAdjFreeB_iff bs).symm

instance (h : Heap) : Decidable (travOK h) :=
  inferInstanceAs (Decidable (h.trav = 8 ∨ h.trav ∈ startList h.blocks))

instance (h : Heap) : Decidable (Inv h) :=
  inferInstanceAs (Decidable (sizesOK h.blocks ∧ noAdjFree h.blocks ∧ travOK h ∧
    h.granted = 16 + sumSizes h.blocks))

instance (h : Heap) (p : Nat) : Decidable (freeable h p) :=
  inferInstanceAs (Decidable (freeableB h p = true))

/-- Heap states reachable by legitimate allocator use: an initialized
heap, followed by any sequence of `mm_malloc`, `mm_free` and `mm_realloc`
calls with well-defined arguments.  Request sizes above `2^64 - 16` make
the size_t adjustment of line 224 wrap (the pathology recorded separately
below) and drive the C code into metadata corruption that has no
counterpart in the block-list model, so traces exclude them. -/
inductive Reach : Heap → Prop where
  | init : ∀ cap h, mm_init cap = some h → Reach h
  | alloc : ∀ h n, Reach h → n ≤ 2 ^ 64 - 16 → Reach (mm_malloc h n).2
  | free : ∀ h p, Reach h → freeable h p → Reach (mm_free h p)
  | re : ∀ h p n, Reach h → freeable h p → n ≤ 2 ^ 64 - 16 →
      Reach (mm_realloc h p n).2

/-! ### Concrete states used by the tests below -/

/-- The heap right after `mm_init` with a 100000-byte provider: one free
4096-byte block at payload address 16, cursor at `heapL`. -/
def sampleHeap : Heap := ⟨[⟨4096, false⟩], 8, 4112, 100000, fun _ => 0⟩

/-- A full heap (capacity exhausted, single allocated block): every
further allocation must fail. -/
def c7heap : Heap := ⟨[⟨4096, true⟩], 16, 4112, 4112, fun _ => 0⟩

/-- A heap whose only block is allocated but whose provider still has
room: the next allocation must grow the heap. -/
def c8heap : Heap := ⟨[⟨4096, true⟩], 16, 4112, 100000, fun _ => 0⟩

/-- The known pattern the realloc test writes into the allocated block. -/
def c1pat : Nat → Nat := fun i => (i + 1) % 251

/-- `allocate(100)` on the fresh heap (payload address 16, block size
112), then the caller fills the 100 requested bytes with `c1pat`. -/
def c1heap : Heap := poke (mm_malloc sampleHeap 100).2 16 100 c1pat

example : mm_init 100000 = some sampleHeap := rfl
example : (mm_malloc sampleHeap 100).1 = some 16 := by decide
example : (mm_malloc sampleHeap 100).2.blocks = [⟨112, true⟩, ⟨3984, false⟩] := by decide
example : (mm_realloc c1heap 16 40).1 = some 128 := by decide
example : (mm_realloc c1heap 16 40).2.mem (128 + 3) = c1pat 3 := by decide

/-! ### Address arithmetic on the block list -/

theorem sumSizes_nil : sumSizes [] = 0 := rfl

theorem sumSizes_cons (b : Block) (bs : List Block) :
    sumSizes (b :: bs) = b.size + sumSizes bs := by
  simp [sumSizes]

theorem sumSizes_append (xs ys : List Block) :
    sumSizes (xs ++ ys) = sumSizes xs + sumSizes ys := by
  simp [sumSizes]

theorem annot_append (a : Nat) (xs ys : List Block) :
    annot a (xs ++ ys) = annot a xs ++ annot (a + sumSizes xs) ys := by
  induction xs generalizing a with
  | nil => simp [annot, sumSizes_nil]
  | cons b bs ih =>
    simp only [List.cons_append, annot, List.append_eq, ih, sumSizes_cons,
      Nat.add_assoc, List.append_assoc]

theorem mem_annot_addr_ge {e : Nat × Block} :
    ∀ {a : Nat} {bs : List Block}, e ∈ annot a bs → a ≤ e.1 := by
  intro a bs
  induction bs generalizing a with
  | nil => intro h; simp [annot] at h
  | cons b bs ih =>
    intro h
    simp only [annot, List.mem_cons] at h
    rcases h with h | h
    · subst h; exact Nat.le_refl _
    · exact Nat.le_trans (Nat.le_add_right _ _) (ih h)

theorem mem_annot_block {e : Nat × Block} :
    ∀ {a : Nat} {bs : List Block}, e ∈ annot a bs → e.2 ∈ bs := by
  intro a bs
  induction bs generalizing a with
  | nil => intro h; simp [annot] at h
  | cons b bs ih =>
    intro h
    simp only [annot, List.mem_cons] at h
    rcases h with h | h
    · subst h; exact List.mem_cons_self _ _
    · exact List.mem_cons_of_mem _ (ih h)

theorem mem_annot_addr_lt {e : Nat × Block} :
    ∀ {a : Nat} {bs : List Block}, e ∈ annot a bs → (∀ b ∈ bs, 0 < b.size) →
      e.1 < a + sumSizes bs := by
  intro a bs
  induction bs generalizing a with
  | nil => intro h; simp [annot] at h
  | cons b bs ih =>
    intro h hpos
    simp only [annot, List.mem_cons] at h
    rcases h with h | h
    · subst h
      have hb : 0 < b.size := hpos b (List.mem_cons_self _ _)
      have : 0 < b.size + sumSizes bs := Nat.lt_of_lt_of_le hb (Nat.le_add_right _ _)
      simp only [sumSizes_cons]
      omega
    · have := ih h (fun x hx => hpos x (List.mem_cons_of_mem _ hx))
      simp only [sumSizes_cons]
      omega

theorem mem_annot_elim {e : Nat × Block} :
    ∀ {a : Nat} {bs : List Block}, e ∈ annot a bs →
      ∃ L R, bs = L ++ e.2 :: R ∧ e.1 = a + sumSizes L := by
  intro a bs
  induction bs generalizing a with
  | nil => intro h; simp [annot] at h
  | cons b bs ih =>
    intro h
    simp only [annot, List.mem_cons] at h
    rcases h with h | h
    · subst h
      exact ⟨[], bs, rfl, by simp [sumSizes_nil]⟩
    · obtain ⟨L, R, hbs, ha⟩ := ih h
      exact ⟨b :: L, R, by simp [hbs], by simp [ha, sumSizes_cons]; omega⟩

theorem annot_mem_intro (L : List Block) (c : Block) (R : List Block) (a : Nat) :
    (a + sumSizes L, c) ∈ annot a (L ++ c :: R) := by
  rw [annot_append]
  exact List.mem_append_right _ (by simp [annot])

theorem mem_startList_iff {t : Nat} {bs : List Block} :
    t ∈ startList bs ↔ ∃ L c R, bs = L ++ c :: R ∧ t = 16 + sumSizes L := by
  constructor
  · intro h
    simp only [startList, List.mem_map] at h
    obtain ⟨e, he, het⟩ := h
    obtain ⟨L, R, hbs, ha⟩ := mem_annot_elim he
    exact ⟨L, e.2, R, hbs, by omega⟩
  · rintro ⟨L, c, R, hbs, ht⟩
    subst hbs
    simp only [startList, List.mem_map]
    exact ⟨(16 + sumSizes L, c), annot_mem_intro L c R 16, by omega⟩

theorem startList_sub_append (X Y : List Block) (t : Nat) (ht : t ∈ startList X) :
    t ∈ startList (X ++ Y) := by
  rw [mem_startList_iff] at ht ⊢
  obtain ⟨L, c, R, hX, ht⟩ := ht
  exact ⟨L, c, R ++ Y, by simp [hX], ht⟩

/-! ### Index lookup -/

theorem idxFrom_sound :
    ∀ {bs : List Block} {s t i : Nat}, idxFrom s t bs = some i →
      ∃ L c R, bs = L ++ c :: R ∧ L.length = i ∧ t = s + sumSizes L := by
  intro bs
  induction bs with
  | nil => intro s t i h; simp [idxFrom] at h
  | cons b bs ih =>
    intro s t i h
    simp only [idxFrom] at h
    by_cases hst : s = t
    · rw [if_pos hst] at h
      injection h with h0
      refine ⟨[], b, bs, rfl, h0, ?_⟩
      simp [sumSizes_nil]
      omega
    · rw [if_neg hst] at h
      rcases hj : idxFrom (s + b.size) t bs with _ | j
      · rw [hj] at h; simp at h
      · rw [hj] at h
        simp only [Option.map_some', Option.some.injEq] at h
        obtain ⟨L, c, R, hbs, hlen, ht⟩ := ih hj
        exact ⟨b :: L, c, R, by simp [hbs], by simp [hlen, h],
          by simp [sumSizes_cons, ht]; omega⟩

theorem idxFrom_complete :
    ∀ (L : List Block) (c : Block) (R : List Block) (s : Nat),
      (∀ b ∈ L, 0 < b.size) →
      idxFrom s (s + sumSizes L) (L ++ c :: R) = some L.length := by
  intro L
  induction L with
  | nil => intro c R s _; simp [idxFrom, sumSizes_nil]
  | cons b bs ih =>
    intro c R s hpos
    have hb : 0 < b.size := hpos b (List.mem_cons_self _ _)
    have heq : s + sumSizes (b :: bs) = s + b.size + sumSizes bs := by
      simp [sumSizes_cons]; omega
    have hne : s ≠ s + b.size + sumSizes bs := by omega
    have hrec := ih c R (s + b.size) (fun x hx => hpos x (List.mem_cons_of_mem _ hx))
    simp only [List.cons_append, idxFrom, List.append_eq, heq, if_neg hne, hrec,
      Option.map_some', List.length_cons]

theorem getD_append_length {α : Type} (L : List α) (c : α) (R : List α) (d : α) :
    (L ++ c :: R).getD L.length d = c := by
  induction L with
  | nil => rfl
  | cons x xs ih => simpa using ih

theorem blockAt_intro (L : List Block) (c : Block) (R : List Block)
    (hpos : ∀ b ∈ L, 0 < b.size) :
    blockAt (L ++ c :: R) (16 + sumSizes L) = some c := by
  simp only [blockAt, idxFrom_complete L c R 16 hpos, Option.map_some']
  rw [getD_append_length]

theorem sizeAt_intro (L : List Block) (c : Block) (R : List Block)
    (hpos : ∀ b ∈ L, 0 < b.size) :
    sizeAt (L ++ c :: R) (16 + sumSizes L) = c.size := by
  simp only [sizeAt, idxFrom_complete L c R 16 hpos]
  rw [getD_append_length]

/-! ### Chain and size helpers -/

@[simp] theorem block_mk_size (s : Nat) (a : Bool) : (Block.mk s a).size = s := rfl

@[simp] theorem block_mk_alloc (s : Nat) (a : Bool) : (Block.mk s a).alloc = a := rfl

theorem sizes_pos {bs : List Block} (h : sizesOK bs) : ∀ b ∈ bs, 0 < b.size :=
  fun b hb => Nat.lt_of_lt_of_le (by norm_num) (h b hb).1

theorem sizesOK_append {xs ys : List Block} :
    sizesOK (xs ++ ys) ↔ sizesOK xs ∧ sizesOK ys := by
  constructor
  · intro h
    exact ⟨fun b hb => h b (List.mem_append_left _ hb),
      fun b hb => h b (List.mem_append_right _ hb)⟩
  · rintro ⟨h1, h2⟩ b hb
    rcases List.mem_append.mp hb with hb | hb
    · exact h1 b hb
    · exact h2 b hb

theorem sizesOK_cons {x : Block} {xs : List Block} :
    sizesOK (x :: xs) ↔ (16 ≤ x.size ∧ x.size % 8 = 0) ∧ sizesOK xs := by
  constructor
  · intro h
    exact ⟨h x (List.mem_cons_self _ _), fun b hb => h b (List.mem_cons_of_mem _ hb)⟩
  · rintro ⟨h1, h2⟩ b hb
    rcases List.mem_cons.mp hb with hb | hb
    · exact hb ▸ h1
    · exact h2 b hb

theorem chain_decomp {L : List Block} {c : Block} {R : List Block}
    (h : List.Chain' okp (L ++ c :: R)) :
    List.Chain' okp L ∧ List.Chain' okp R ∧
      (∀ x ∈ L.getLast?, okp x c) ∧ (∀ y ∈ R.head?, okp c y) := by
  rw [List.chain'_append] at h
  obtain ⟨hL, hcR, hb⟩ := h
  rw [List.chain'_cons'] at hcR
  refine ⟨hL, hcR.2, ?_, hcR.1⟩
  intro x hx
  exact hb x hx c rfl

theorem chain_sandwich {L R : List Block} {m : Block}
    (cL : List.Chain' okp L) (cR : List.Chain' okp R)
    (h1 : ∀ x ∈ L.getLast?, okp x m) (h2 : ∀ y ∈ R.head?, okp m y) :
    List.Chain' okp (L ++ m :: R) := by
  rw [List.chain'_append]
  refine ⟨cL, ?_, ?_⟩
  · rw [List.chain'_cons']
    exact ⟨h2, cR⟩
  · intro x hx y hy
    rw [Option.mem_def] at hy
    simp only [List.head?_cons, Option.some.injEq] at hy
    subst hy
    exact h1 x hx

theorem head_alloc_of_bool {R : List Block}
    (h : (R.head?.map Block.alloc).getD true = true) :
    ∀ y ∈ R.head?, y.alloc = true := by
  cases R with
  | nil => intro y hy; simp at hy
  | cons n R' =>
    intro y hy
    rw [Option.mem_def] at hy
    simp only [List.head?_cons, Option.some.injEq] at hy
    subst hy
    simpa using h

theorem getLast_alloc_of_bool {L : List Block}
    (h : (L.getLast?.map Block.alloc).getD true = true) :
    ∀ x ∈ L.getLast?, x.alloc = true := by
  rcases L.eq_nil_or_concat' with hnil | ⟨L', p, rfl⟩
  · subst hnil; intro x hx; simp at hx
  · intro x hx
    rw [Option.mem_def] at hx
    rw [List.getLast?_concat] at hx h
    simp only [Option.some.injEq] at hx
    subst hx
    simpa using h

/-! ### Cursor relocation preserves validity -/

theorem travAdj_valid (X M Y : List Block) (m : Block) (trav : Nat)
    (hsum : sumSizes M = m.size)
    (hX : ∀ b ∈ X, 0 < b.size) (hM : ∀ b ∈ M, 0 < b.size) (hMne : M ≠ [])
    (ht : trav = 8 ∨ trav ∈ startList (X ++ (M ++ Y))) :
    travAdj trav (16 + sumSizes X) m.size = 8 ∨
      travAdj trav (16 + sumSizes X) m.size ∈ startList (X ++ m :: Y) := by
  have hMpos : 0 < sumSizes M := by
    cases M with
    | nil => exact absurd rfl hMne
    | cons x xs =>
      have := hM x (List.mem_cons_self _ _)
      simp only [sumSizes_cons]
      omega
  rcases ht with ht | ht
  · subst ht
    left
    rw [travAdj, if_neg]
    omega
  · have hsplit :
        trav ∈ (annot 16 X).map Prod.fst ∨
          trav ∈ (annot (16 + sumSizes X) M).map Prod.fst ∨
            trav ∈ (annot (16 + sumSizes X + sumSizes M) Y).map Prod.fst := by
      simp only [startList, annot_append, List.map_append, List.mem_append] at ht
      tauto
    rcases hsplit with hX1 | hM1 | hY1
    · obtain ⟨e, he, hte⟩ := List.mem_map.mp hX1
      have hlt : trav < 16 + sumSizes X := hte ▸ mem_annot_addr_lt he hX
      right
      rw [travAdj, if_neg (by omega)]
      apply startList_sub_append
      simp only [startList, List.mem_map]
      exact ⟨e, he, hte⟩
    · obtain ⟨e, he, hte⟩ := List.mem_map.mp hM1
      have hge : 16 + sumSizes X ≤ trav := hte ▸ mem_annot_addr_ge he
      have hlt : trav < 16 + sumSizes X + sumSizes M := hte ▸ mem_annot_addr_lt he hM
      right
      have hmem : 16 + sumSizes X ∈ startList (X ++ m :: Y) :=
        mem_startList_iff.mpr ⟨X, m, Y, rfl, rfl⟩
      rcases Nat.eq_or_lt_of_le hge with heq | hgt
      · rw [travAdj, if_neg (by omega)]
        exact heq ▸ hmem
      · rw [travAdj, if_pos (by omega)]
        exact hmem
    · obtain ⟨e, he, hte⟩ := List.mem_map.mp hY1
      have hge : 16 + sumSizes X + sumSizes M ≤ trav := hte ▸ mem_annot_addr_ge he
      right
      rw [travAdj, if_neg (by omega)]
      rw [mem_startList_iff]
      obtain ⟨A, B, hY, haddr⟩ := mem_annot_elim he
      refine ⟨X ++ m :: A, e.2, B, by simp [hY], ?_⟩
      rw [sumSizes_append, sumSizes_cons]
      omega

/-! ### The four coalescing cases -/

theorem coalesce_case1 (L : List Block) (b : Block) (R : List Block) (trav : Nat)
    (h1 : (L.getLast?.map Block.alloc).getD true = true)
    (h2 : (R.head?.map Block.alloc).getD true = true) :
    coalesce L b R trav = (L ++ b :: R, 16 + sumSizes L, trav) := by
  simp [coalesce, h1, h2]

theorem coalesce_case2 (L' : List Block) (p b : Block) (R : List Block) (trav : Nat)
    (hp : p.alloc = false)
    (h2 : (R.head?.map Block.alloc).getD true = true) :
    coalesce (L' ++ [p]) b R trav =
      (L' ++ (⟨p.size + b.size, false⟩ : Block) :: R, 16 + sumSizes L',
        travAdj trav (16 + sumSizes L') (p.size + b.size)) := by
  simp [coalesce, List.getLast?_concat, List.dropLast_concat, hp, h2]

theorem coalesce_case3 (L : List Block) (b n : Block) (R' : List Block) (trav : Nat)
    (h1 : (L.getLast?.map Block.alloc).getD true = true)
    (hn : n.alloc = false) :
    coalesce L b (n :: R') trav =
      (L ++ (⟨b.size + n.size, false⟩ : Block) :: R', 16 + sumSizes L,
        travAdj trav (16 + sumSizes L) (b.size + n.size)) := by
  simp [coalesce, h1, hn]

theorem coalesce_case4 (L' : List Block) (p b n : Block) (R' : List Block) (trav : Nat)
    (hp : p.alloc = false) (hn : n.alloc = false) :
    coalesce (L' ++ [p]) b (n :: R') trav =
      (L' ++ (⟨p.size + b.size + n.size, false⟩ : Block) :: R', 16 + sumSizes L',
        travAdj trav (16 + sumSizes L') (p.size + b.size + n.size)) := by
  simp [coalesce, List.getLast?_concat, List.dropLast_concat, hp, hn]

/-- Everything `coalesce` guarantees when called (as the code always does)
on a freshly freed or freshly grown free block `b` whose two flanks `L`,
`R` are internally well formed: sizes stay well formed, no two adjacent
free blocks remain, the total size is conserved, the cursor stays valid,
and the result address points at a free block at least as big as `b`. -/
theorem coalesce_ok (L : List Block) (b : Block) (R : List Block) (trav : Nat)
    (hb : 16 ≤ b.size ∧ b.size % 8 = 0) (hbf : b.alloc = false)
    (hL : sizesOK L) (hR : sizesOK R)
    (cL : List.Chain' okp L) (cR : List.Chain' okp R)
    (ht : trav = 8 ∨ trav ∈ startList (L ++ b :: R)) :
    sizesOK (coalesce L b R trav).1 ∧
      List.Chain' okp (coalesce L b R trav).1 ∧
      sumSizes (coalesce L b R trav).1 = sumSizes (L ++ b :: R) ∧
      ((coalesce L b R trav).2.2 = 8 ∨
        (coalesce L b R trav).2.2 ∈ startList (coalesce L b R trav).1) ∧
      (∃ X m Y, (coalesce L b R trav).1 = X ++ m :: Y ∧
        (coalesce L b R trav).2.1 = 16 + sumSizes X ∧
        m.alloc = false ∧ b.size ≤ m.size ∧ (∀ x ∈ X, 0 < x.size)) := by
  cases hpa : (L.getLast?.map Block.alloc).getD true with
  | true =>
    cases hna : (R.head?.map Block.alloc).getD true with
    | true =>
      rw [coalesce_case1 L b R trav hpa hna]
      refine ⟨?_, ?_, rfl, ht, L, b, R, rfl, rfl, hbf, Nat.le_refl _, sizes_pos hL⟩
      · exact sizesOK_append.mpr ⟨hL, sizesOK_cons.mpr ⟨hb, hR⟩⟩
      · refine chain_sandwich cL cR ?_ ?_
        · intro x hx
          exact Or.inl (getLast_alloc_of_bool hpa x hx)
        · intro y hy
          exact Or.inr (head_alloc_of_bool hna y hy)
    | false =>
      obtain ⟨n, R', rfl, hn⟩ : ∃ n R', R = n :: R' ∧ n.alloc = false := by
        cases R with
        | nil => simp at hna
        | cons n R' => exact ⟨n, R', rfl, by simpa using hna⟩
      obtain ⟨hn16, hR'⟩ := sizesOK_cons.mp hR
      rw [List.chain'_cons'] at cR
      obtain ⟨hnR', cR'⟩ := cR
      rw [coalesce_case3 L b n R' trav hpa hn]
      refine ⟨?_, ?_, ?_, ?_, L, ⟨b.size + n.size, false⟩, R', rfl, rfl, rfl,
        by simp only [block_mk_size]; omega, sizes_pos hL⟩
      · refine sizesOK_append.mpr ⟨hL, sizesOK_cons.mpr ⟨?_, hR'⟩⟩
        constructor
        · show 16 ≤ b.size + n.size
          omega
        · show (b.size + n.size) % 8 = 0
          omega
      · refine chain_sandwich cL cR' ?_ ?_
        · intro x hx
          exact Or.inl (getLast_alloc_of_bool hpa x hx)
        · intro y hy
          rcases hnR' y hy with hny | hny
          · rw [hn] at hny; cases hny
          · exact Or.inr hny
      · simp only [sumSizes_append, sumSizes_cons]
        show sumSizes L + (b.size + n.size + sumSizes R') = _
        omega
      · exact travAdj_valid L [b, n] R' ⟨b.size + n.size, false⟩ trav
          (by simp [sumSizes]) (sizes_pos hL)
          (by
            intro x hx
            rcases List.mem_cons.mp hx with rfl | hx
            · omega
            · rcases List.mem_cons.mp hx with rfl | hx
              · omega
              · simp at hx)
          (by simp) ht
  | false =>
    obtain ⟨L', p, rfl, hp⟩ : ∃ L' p, L = L' ++ [p] ∧ p.alloc = false := by
      rcases L.eq_nil_or_concat' with rfl | ⟨L', p, rfl⟩
      · simp at hpa
      · refine ⟨L', p, rfl, ?_⟩
        rw [List.getLast?_concat] at hpa
        simpa using hpa
    obtain ⟨hL', hpOK⟩ := sizesOK_append.mp hL
    have hp16 : 16 ≤ p.size ∧ p.size % 8 = 0 := hpOK p (List.mem_cons_self _ _)
    obtain ⟨cL', -, h1p, -⟩ := chain_decomp (c := p) (R := []) (by simpa using cL)
    have hxa : ∀ x ∈ L'.getLast?, x.alloc = true := by
      intro x hx
      rcases h1p x hx with hxp | hxp
      · exact hxp
      · rw [hp] at hxp; cases hxp
    cases hna : (R.head?.map Block.alloc).getD true with
    | true =>
      rw [coalesce_case2 L' p b R trav hp hna]
      have hteq : (L' ++ [p]) ++ b :: R = L' ++ ([p, b] ++ R) := by simp
      refine ⟨?_, ?_, ?_, ?_, L', ⟨p.size + b.size, false⟩, R, rfl, rfl, rfl,
        by simp only [block_mk_size]; omega, sizes_pos hL'⟩
      · refine sizesOK_append.mpr ⟨hL', sizesOK_cons.mpr ⟨?_, hR⟩⟩
        constructor
        · show 16 ≤ p.size + b.size
          omega
        · show (p.size + b.size) % 8 = 0
          omega
      · refine chain_sandwich cL' cR ?_ ?_
        · intro x hx
          exact Or.inl (hxa x hx)
        · intro y hy
          exact Or.inr (head_alloc_of_bool hna y hy)
      · simp only [sumSizes_append, sumSizes_cons]
        show sumSizes L' + (p.size + b.size + sumSizes R) = _
        simp [sumSizes]
        omega
      · refine travAdj_valid L' [p, b] R ⟨p.size + b.size, false⟩ trav
          (by simp [sumSizes]) (sizes_pos hL')
          (by
            intro x hx
            rcases List.mem_cons.mp hx with rfl | hx
            · omega
            · rcases List.mem_cons.mp hx with rfl | hx
              · omega
              · simp at hx)
          (by simp) ?_
        rw [← hteq]
        exact ht
    | false =>
      obtain ⟨n, R', rfl, hn⟩ : ∃ n R', R = n :: R' ∧ n.alloc = false := by
        cases R with
        | nil => simp at hna
        | cons n R' => exact ⟨n, R', rfl, by simpa using hna⟩
      obtain ⟨hn16, hR'⟩ := sizesOK_cons.mp hR
      rw [List.chain'_cons'] at cR
      obtain ⟨hnR', cR'⟩ := cR
      rw [coalesce_case4 L' p b n R' trav hp hn]
      have hteq : (L' ++ [p]) ++ b :: n :: R' = L' ++ ([p, b, n] ++ R') := by simp
      refine ⟨?_, ?_, ?_, ?_, L', ⟨p.size + b.size + n.size, false⟩, R', rfl, rfl,
        rfl, by simp only [block_mk_size]; omega, sizes_pos hL'⟩
      · refine sizesOK_append.mpr ⟨hL', sizesOK_cons.mpr ⟨?_, hR'⟩⟩
        constructor
        · show 16 ≤ p.size + b.size + n.size
          omega
        · show (p.size + b.size + n.size) % 8 = 0
          omega
      · refine chain_sandwich cL' cR' ?_ ?_
        · intro x hx
          exact Or.inl (hxa x hx)
        · intro y hy
          rcases hnR' y hy with hny | hny
          · rw [hn] at hny; cases hny
          · exact Or.inr hny
      · simp only [sumSizes_append, sumSizes_cons, sumSizes_nil, block_mk_size]
        omega
      · refine travAdj_valid L' [p, b, n] R' ⟨p.size + b.size + n.size, false⟩ trav
          (by simp [sumSizes]; omega) (sizes_pos hL')
          (by
            intro x hx
            rcases List.mem_cons.mp hx with rfl | hx
            · omega
            · rcases List.mem_cons.mp hx with rfl | hx
              · omega
              · rcases List.mem_cons.mp hx with rfl | hx
                · omega
                · simp at hx)
          (by simp) ?_
        rw [← hteq]
        exact ht

/-! ### Placement -/

theorem putAt_eq (L : List Block) (c : Block) (R : List Block) (adj : Nat)
    (hpos : ∀ b ∈ L, 0 < b.size) :
    putAt (L ++ c :: R) (16 + sumSizes L) adj =
      if 2 * 8 ≤ c.size - adj then
        L ++ (⟨adj, true⟩ : Block) :: (⟨c.size - adj, false⟩ : Block) :: R
      else L ++ (⟨c.size, true⟩ : Block) :: R := by
  have hidx := idxFrom_complete L c R 16 hpos
  have htake : (L ++ c :: R).take L.length = L := List.take_left L (c :: R)
  have hdrop : (L ++ c :: R).drop (L.length + 1) = R := by
    have h1 : (L ++ c :: R).drop L.length = c :: R := List.drop_left L (c :: R)
    have h2 := List.drop_drop 1 L.length (L ++ c :: R)
    rw [h1] at h2
    exact h2.symm
  rw [putAt, hidx]
  simp only [put, getD_append_length, htake, hdrop]

theorem startList_decomp (L : List Block) (c : Block) (R : List Block) :
    startList (L ++ c :: R) =
      (annot 16 L).map Prod.fst ++ (16 + sumSizes L) ::
        (annot (16 + sumSizes L + c.size) R).map Prod.fst := by
  simp [startList, annot_append, annot]

theorem putAt_starts (L : List Block) (c : Block) (R : List Block) (adj : Nat)
    (hpos : ∀ b ∈ L, 0 < b.size) (hadj : adj ≤ c.size) :
    startList (L ++ c :: R) ⊆ startList (putAt (L ++ c :: R) (16 + sumSizes L) adj) := by
  rw [putAt_eq L c R adj hpos]
  by_cases hsplit : 2 * 8 ≤ c.size - adj
  · rw [if_pos hsplit]
    intro t ht
    rw [startList_decomp] at ht
    rw [startList_decomp]
    have hb : 16 + sumSizes L + (⟨adj, true⟩ : Block).size +
        (⟨c.size - adj, false⟩ : Block).size = 16 + sumSizes L + c.size := by
      simp only [block_mk_size]
      omega
    simp only [annot, List.map_cons, block_mk_size] at *
    rw [show 16 + sumSizes L + adj + (c.size - adj) = 16 + sumSizes L + c.size by omega]
    simp only [List.mem_append, List.mem_cons] at ht ⊢
    tauto
  · rw [if_neg hsplit]
    intro t ht
    rw [startList_decomp] at ht
    rw [startList_decomp]
    simp only [block_mk_size]
    exact ht

theorem putAt_ok (L : List Block) (c : Block) (R : List Block) (adj : Nat)
    (hc : c.alloc = false) (hadj : adj ≤ c.size) (hadj16 : 16 ≤ adj)
    (hadj8 : adj % 8 = 0)
    (hOK : sizesOK (L ++ c :: R)) (hch : List.Chain' okp (L ++ c :: R)) :
    sizesOK (putAt (L ++ c :: R) (16 + sumSizes L) adj) ∧
      List.Chain' okp (putAt (L ++ c :: R) (16 + sumSizes L) adj) ∧
      sumSizes (putAt (L ++ c :: R) (16 + sumSizes L) adj) = sumSizes (L ++ c :: R) ∧
      blockAt (putAt (L ++ c :: R) (16 + sumSizes L) adj) (16 + sumSizes L) =
        some (if 2 * 8 ≤ c.size - adj then (⟨adj, true⟩ : Block)
          else (⟨c.size, true⟩ : Block)) := by
  obtain ⟨hL, hcR⟩ := sizesOK_append.mp hOK
  obtain ⟨hc16, hR⟩ := sizesOK_cons.mp hcR
  obtain ⟨cL, cR, hlc, hcr⟩ := chain_decomp hch
  have hpos := sizes_pos hL
  rw [putAt_eq L c R adj hpos]
  by_cases hsplit : 2 * 8 ≤ c.size - adj
  · rw [if_pos hsplit, if_pos hsplit]
    refine ⟨?_, ?_, ?_, ?_⟩
    · refine sizesOK_append.mpr ⟨hL, sizesOK_cons.mpr ⟨⟨hadj16, hadj8⟩,
        sizesOK_cons.mpr ⟨⟨by simp only [block_mk_size]; omega,
          by simp only [block_mk_size]; omega⟩, hR⟩⟩⟩
    · refine chain_sandwich cL ?_ ?_ ?_
      · rw [List.chain'_cons']
        refine ⟨?_, cR⟩
        intro y hy
        rcases hcr y hy with hyc | hyc
        · rw [hc] at hyc; cases hyc
        · exact Or.inr hyc
      · intro x hx
        exact Or.inr rfl
      · intro y hy
        rw [Option.mem_def] at hy
        simp only [List.head?_cons, Option.some.injEq] at hy
        subst hy
        exact Or.inl rfl
    · simp only [sumSizes_append, sumSizes_cons, block_mk_size]
      omega
    · exact blockAt_intro L _ _ hpos
  · rw [if_neg hsplit, if_neg hsplit]
    refine ⟨?_, ?_, ?_, ?_⟩
    · exact sizesOK_append.mpr ⟨hL, sizesOK_cons.mpr ⟨⟨by simp only [block_mk_size]; omega,
        by simp only [block_mk_size]; exact hc16.2⟩, hR⟩⟩
    · refine chain_sandwich cL cR ?_ ?_
      · intro x hx
        exact Or.inr rfl
      · intro y hy
        rcases hcr y hy with hyc | hyc
        · rw [hc] at hyc; cases hyc
        · exact Or.inr hyc
    · simp only [sumSizes_append, sumSizes_cons, block_mk_size]
    · exact blockAt_intro L _ _ hpos

/-! ### Next-fit search -/

theorem fitLoop_some {adj : Nat} :
    ∀ {l : List (Nat × Block)} {a : Nat}, fitLoop adj l = some a →
      ∃ e : Nat × Block, e ∈ l ∧ e.1 = a ∧ e.2.alloc = false ∧ adj ≤ e.2.size := by
  intro l
  induction l with
  | nil => intro a h; simp [fitLoop] at h
  | cons e es ih =>
    intro a h
    rw [fitLoop] at h
    by_cases hp : (!e.2.alloc && decide (adj ≤ e.2.size)) = true
    · rw [if_pos hp] at h
      injection h with h
      simp only [Bool.and_eq_true, Bool.not_eq_true', decide_eq_true_eq] at hp
      exact ⟨e, List.mem_cons_self _ _, h, hp.1, hp.2⟩
    · rw [if_neg hp] at h
      obtain ⟨e2, he2, h1, h2, h3⟩ := ih h
      exact ⟨e2, List.mem_cons_of_mem _ he2, h1, h2, h3⟩

theorem fitLoop_eq_find (adj : Nat) :
    ∀ l : List (Nat × Block),
      fitLoop adj l =
        (l.find? fun e => !e.2.alloc && decide (adj ≤ e.2.size)).map Prod.fst := by
  intro l
  induction l with
  | nil => rfl
  | cons e es ih =>
    rw [fitLoop, List.find?_cons]
    rcases hp : (!e.2.alloc && decide (adj ≤ e.2.size)) with _ | _ <;> simp [ih]

theorem fit_entry_mem {bs : List Block} {e : Nat × Block}
    (he : e ∈ entries bs) (halloc : e.2.alloc = false) : e ∈ annot 16 bs := by
  rcases List.mem_cons.mp he with he | he
  · rw [he] at halloc
    simp [prologue] at halloc
  · exact he

theorem fit_cases (h : Heap) (adj : Nat) :
    ((fit h adj).1 = some (fit h adj).2 ∧
      ∃ e : Nat × Block, e ∈ entries h.blocks ∧ e.1 = (fit h adj).2 ∧
        e.2.alloc = false ∧ adj ≤ e.2.size) ∨
    ((fit h adj).1 = none ∧
      (fit h adj).2 = stopAddr (entries h.blocks) (16 + sumSizes h.blocks) h.trav) := by
  simp only [fit]
  rcases e1 : fitLoop adj ((entries h.blocks).dropWhile fun e => decide (e.1 < h.trav))
    with _ | a1
  · rcases e2 : fitLoop adj ((entries h.blocks).takeWhile fun e => decide (e.1 < h.trav))
      with _ | a2
    · right
      exact ⟨rfl, rfl⟩
    · left
      obtain ⟨e, he, h1, h2, h3⟩ := fitLoop_some e2
      exact ⟨rfl, e, (List.takeWhile_sublist _).subset he, h1, h2, h3⟩
  · left
    obtain ⟨e, he, h1, h2, h3⟩ := fitLoop_some e1
    exact ⟨rfl, e, (List.dropWhile_sublist _).subset he, h1, h2, h3⟩

theorem find_ge_annot :
    ∀ {s : Nat} {bs : List Block} {t : Nat}, (∀ b ∈ bs, 0 < b.size) →
      t ∈ (annot s bs).map Prod.fst →
      ∃ b, (annot s bs).find? (fun e => decide (t ≤ e.1)) = some (t, b) := by
  intro s bs
  induction bs generalizing s with
  | nil => intro t _ h; simp [annot] at h
  | cons b bs ih =>
    intro t hpos h
    simp only [annot, List.map_cons, List.mem_cons] at h
    rcases h with rfl | h
    · rw [annot]
      exact ⟨b, List.find?_cons_of_pos _ (by simp)⟩
    · have hge : s + b.size ≤ t := by
        obtain ⟨e, he, hte⟩ := List.mem_map.mp h
        exact hte ▸ mem_annot_addr_ge he
      have hb : 0 < b.size := hpos b (List.mem_cons_self _ _)
      rw [annot, List.find?_cons_of_neg]
      · exact ih (fun x hx => hpos x (List.mem_cons_of_mem _ hx)) h
      · simp only [decide_eq_true_eq]
        omega

theorem stopAddr_self {bs : List Block} {t : Nat}
    (hpos : ∀ b ∈ bs, 0 < b.size)
    (ht : t = 8 ∨ t ∈ startList bs) :
    stopAddr (entries bs) (16 + sumSizes bs) t = t := by
  rcases ht with rfl | ht
  · rw [stopAddr, entries, List.find?_cons_of_pos _ (by simp)]
  · rw [startList] at ht
    have h16 : 16 ≤ t := by
      obtain ⟨e, he, hte⟩ := List.mem_map.mp ht
      exact hte ▸ mem_annot_addr_ge he
    obtain ⟨bk, hfind⟩ := find_ge_annot hpos ht
    rw [stopAddr, entries, List.find?_cons_of_neg _ (by simp only [decide_eq_true_eq]; omega),
      hfind]

/-! ### The adjusted request size -/

theorem adjSize_ok {n : Nat} (hn : n ≤ 2 ^ 64 - 16) :
    16 ≤ adjSize n ∧ adjSize n % 8 = 0 := by
  rw [adjSize]
  by_cases h8 : n ≤ 8
  · rw [if_pos h8]
    omega
  · rw [if_neg h8]
    rw [Nat.mod_eq_of_lt (by omega)]
    omega

/-! ### Heap growth -/

theorem sumSizes_mod8 {bs : List Block} (h : sizesOK bs) : sumSizes bs % 8 = 0 := by
  induction bs with
  | nil => rfl
  | cons b bs ih =>
    obtain ⟨hb, hbs⟩ := sizesOK_cons.mp h
    have := ih hbs
    rw [sumSizes_cons]
    omega

theorem heap_eta (h : Heap) : ({ h with trav := h.trav } : Heap) = h := rfl


theorem grow_heap_eq (h : Heap) (w : Nat) (hw2 : w % 2 = 0) :
    grow_heap h w =
      if h.granted + w * 4 > h.cap then none
      else
        some
          ({ h with
              blocks := (coalesce h.blocks ⟨w * 4, false⟩ [] h.trav).1
              trav := (coalesce h.blocks ⟨w * 4, false⟩ [] h.trav).2.2
              granted := h.granted + w * 4 },
            (coalesce h.blocks ⟨w * 4, false⟩ [] h.trav).2.1) := by
  have hsize : (if w % 2 = 1 then (w + 1) * 4 else w * 4) = w * 4 := if_neg (by omega)
  simp only [grow_heap, hsize]

theorem grow_ok {h : Heap} {w : Nat} (hInv : Inv h) (hw2 : w % 2 = 0)
    (h16 : 16 ≤ w * 4) (h8 : w * 4 % 8 = 0) :
    ∀ r : Heap × Nat, grow_heap h w = some r →
      sizesOK r.1.blocks ∧ List.Chain' okp r.1.blocks ∧
        (r.1.trav = 8 ∨ r.1.trav ∈ startList r.1.blocks) ∧
        r.1.granted = h.granted + w * 4 ∧
        sumSizes r.1.blocks = sumSizes h.blocks + w * 4 ∧
        r.1.cap = h.cap ∧ r.1.mem = h.mem ∧
        ∃ X m Y, r.1.blocks = X ++ m :: Y ∧ r.2 = 16 + sumSizes X ∧
          m.alloc = false ∧ w * 4 ≤ m.size ∧ (∀ x ∈ X, 0 < x.size) := by
  obtain ⟨hsz, hch, htr, hgr⟩ := hInv
  intro r hg
  rw [grow_heap_eq h w hw2] at hg
  by_cases hcap : h.granted + w * 4 > h.cap
  · rw [if_pos hcap] at hg
    cases hg
  · rw [if_neg hcap] at hg
    have hco := coalesce_ok h.blocks ⟨w * 4, false⟩ [] h.trav
      ⟨by simpa using h16, by simpa using h8⟩ rfl hsz
      (by intro b hb; simp at hb) hch List.chain'_nil
      (by
        rcases htr with htr | htr
        · exact Or.inl htr
        · exact Or.inr (startList_sub_append _ _ _ htr))
    obtain ⟨c1, c2, c3, c4, X, m, Y, hz1, hz2, hz3, hz4, hz5⟩ := hco
    injection hg with hg1
    subst hg1
    refine ⟨c1, c2, c4, rfl, ?_, rfl, rfl, X, m, Y, hz1, hz2, hz3, by simpa using hz4, hz5⟩
    rw [c3, sumSizes_append, sumSizes_cons, sumSizes_nil, block_mk_size]
    omega

/-! ### Branch equations for mm_malloc -/

theorem mm_malloc_hit (h : Heap) (n : Nat) (hn0 : ¬ n = 0) {t : Nat}
    (hf : (fit h (adjSize n)).1 = some t) :
    mm_malloc h n = (some t,
      { h with
          trav := (fit h (adjSize n)).2
          blocks := putAt h.blocks t (adjSize n) }) := by
  simp only [mm_malloc, if_neg hn0, hf]

theorem mm_malloc_miss_none (h : Heap) (n : Nat) (hn0 : ¬ n = 0)
    (hf : (fit h (adjSize n)).1 = none)
    (hg : grow_heap { h with trav := (fit h (adjSize n)).2 }
        ((if adjSize n > CHUNKSIZE then adjSize n else CHUNKSIZE) / 4) = none) :
    mm_malloc h n = (none, { h with trav := (fit h (adjSize n)).2 }) := by
  simp only [mm_malloc, if_neg hn0, hf, hg]

theorem mm_malloc_miss_some (h : Heap) (n : Nat) (hn0 : ¬ n = 0) {r : Heap × Nat}
    (hf : (fit h (adjSize n)).1 = none)
    (hg : grow_heap { h with trav := (fit h (adjSize n)).2 }
        ((if adjSize n > CHUNKSIZE then adjSize n else CHUNKSIZE) / 4) = some r) :
    mm_malloc h n =
      (some r.2, { r.1 with blocks := putAt r.1.blocks r.2 (adjSize n) }) := by
  simp only [mm_malloc, if_neg hn0, hf, hg]

/-! ### mm_malloc: invariant preservation and result shape -/

theorem malloc_master (h : Heap) (n : Nat) (hInv : Inv h) (hn : n ≤ 2 ^ 64 - 16) :
    Inv (mm_malloc h n).2 ∧
      (mm_malloc h n).2.cap = h.cap ∧ (mm_malloc h n).2.mem = h.mem ∧
      ((mm_malloc h n).1 = none → (mm_malloc h n).2 = h) ∧
      ∀ a, (mm_malloc h n).1 = some a →
        a % 8 = 0 ∧ ∃ bk : Block, blockAt (mm_malloc h n).2.blocks a = some bk ∧
          bk.alloc = true ∧ 16 ≤ bk.size ∧ adjSize n ≤ bk.size := by
  by_cases hn0 : n = 0
  · subst hn0
    simp only [mm_malloc, if_pos rfl]
    exact ⟨hInv, rfl, rfl, fun _ => rfl, fun a ha => by cases ha⟩
  · obtain ⟨hadj16, hadj8⟩ := adjSize_ok hn
    obtain ⟨hsz, hch, htr, hgr⟩ := hInv
    rcases fit_cases h (adjSize n) with ⟨hf1, e, he, hea, healloc, hesize⟩ | ⟨hf1, hf2⟩
    · rw [mm_malloc_hit h n hn0 hf1]
      have hmem := fit_entry_mem he healloc
      obtain ⟨L, R, hbs, haddr⟩ := mem_annot_elim hmem
      have htt : (fit h (adjSize n)).2 = 16 + sumSizes L := by rw [← hea, haddr]
      have hOK : sizesOK (L ++ e.2 :: R) := hbs ▸ hsz
      have hchOK : List.Chain' okp (L ++ e.2 :: R) := hbs ▸ hch
      obtain ⟨p1, p2, p3, p4⟩ := putAt_ok L e.2 R (adjSize n) healloc hesize hadj16
        hadj8 hOK hchOK
      obtain ⟨hL, hcR⟩ := sizesOK_append.mp hOK
      have hput : putAt h.blocks (fit h (adjSize n)).2 (adjSize n) =
          putAt (L ++ e.2 :: R) (16 + sumSizes L) (adjSize n) := by rw [hbs, htt]
      refine ⟨⟨?_, ?_, ?_, ?_⟩, ?_, ?_, ?_, ?_⟩
      · show sizesOK (putAt h.blocks (fit h (adjSize n)).2 (adjSize n))
        rw [hput]
        exact p1
      · show List.Chain' okp (putAt h.blocks (fit h (adjSize n)).2 (adjSize n))
        rw [hput]
        exact p2
      · show (fit h (adjSize n)).2 = 8 ∨
          (fit h (adjSize n)).2 ∈ startList (putAt h.blocks (fit h (adjSize n)).2 (adjSize n))
        refine Or.inr ?_
        rw [hput]
        rw [htt]
        exact putAt_starts L e.2 R (adjSize n) (sizes_pos hL) hesize
          (mem_startList_iff.mpr ⟨L, e.2, R, rfl, rfl⟩)
      · show h.granted = 16 + sumSizes (putAt h.blocks (fit h (adjSize n)).2 (adjSize n))
        rw [hput, p3, ← hbs]
        exact hgr
      · rfl
      · rfl
      · intro hc
        exact Option.noConfusion hc
      · intro a ha
        injection ha with ha
        subst ha
        constructor
        · rw [htt]
          have := sumSizes_mod8 hL
          omega
        · refine ⟨if 2 * 8 ≤ e.2.size - adjSize n then (⟨adjSize n, true⟩ : Block)
            else (⟨e.2.size, true⟩ : Block), ?_, ?_, ?_, ?_⟩
          · show blockAt (putAt h.blocks (fit h (adjSize n)).2 (adjSize n))
              (fit h (adjSize n)).2 = _
            rw [hput, htt]
            exact p4
          · by_cases hs : 2 * 8 ≤ e.2.size - adjSize n
            · rw [if_pos hs]
            · rw [if_neg hs]
          · by_cases hs : 2 * 8 ≤ e.2.size - adjSize n
            · rw [if_pos hs]
              simpa using hadj16
            · rw [if_neg hs]
              have h16 := (hcR e.2 (List.mem_cons_self _ _)).1
              simpa using h16
          · by_cases hs : 2 * 8 ≤ e.2.size - adjSize n
            · rw [if_pos hs]
            · rw [if_neg hs]
              simpa using hesize
    · have hstop : (fit h (adjSize n)).2 = h.trav := by
        rw [hf2]
        exact stopAddr_self (sizes_pos hsz) htr
      have h1h : ({ h with trav := (fit h (adjSize n)).2 } : Heap) = h := by
        rw [hstop]
      rcases hg : grow_heap h ((if adjSize n > CHUNKSIZE then adjSize n else CHUNKSIZE) / 4)
        with _ | r
      · rw [mm_malloc_miss_none h n hn0 hf1 (by rw [h1h]; exact hg), h1h]
        exact ⟨⟨hsz, hch, htr, hgr⟩, rfl, rfl, fun _ => rfl, fun a ha => by cases ha⟩
      · have hCH : CHUNKSIZE = 4096 := rfl
        have hgs8 : (if adjSize n > CHUNKSIZE then adjSize n else CHUNKSIZE) % 8 = 0 := by
          by_cases hc : adjSize n > CHUNKSIZE
          · rw [if_pos hc]
            exact hadj8
          · rw [if_neg hc, hCH]
        have hgs16 : 16 ≤ (if adjSize n > CHUNKSIZE then adjSize n else CHUNKSIZE) := by
          by_cases hc : adjSize n > CHUNKSIZE
          · rw [if_pos hc]
            exact hadj16
          · rw [if_neg hc, hCH]
            omega
        have hgsadj : adjSize n ≤ (if adjSize n > CHUNKSIZE then adjSize n else CHUNKSIZE) := by
          by_cases hc : adjSize n > CHUNKSIZE
          · rw [if_pos hc]
          · rw [if_neg hc]
            omega
        have hw2 : ((if adjSize n > CHUNKSIZE then adjSize n else CHUNKSIZE) / 4) % 2 = 0 := by
          omega
        have hw4 : ((if adjSize n > CHUNKSIZE then adjSize n else CHUNKSIZE) / 4) * 4 =
            (if adjSize n > CHUNKSIZE then adjSize n else CHUNKSIZE) := by
          omega
        obtain ⟨g1, g2, g3, g4, g5, g6, g7, X, m, Y, gz1, gz2, gz3, gz4, gz5⟩ :=
          grow_ok ⟨hsz, hch, htr, hgr⟩ hw2 (by omega) (by omega) r hg
        have hadjm : adjSize n ≤ m.size := by omega
        have hXsz : sizesOK X := (sizesOK_append.mp (gz1 ▸ g1)).1
        obtain ⟨q1, q2, q3, q4⟩ := putAt_ok X m Y (adjSize n) gz3 hadjm hadj16 hadj8
          (gz1 ▸ g1) (gz1 ▸ g2)
        have hput : putAt r.1.blocks r.2 (adjSize n) =
            putAt (X ++ m :: Y) (16 + sumSizes X) (adjSize n) := by rw [gz1, gz2]
        rw [mm_malloc_miss_some h n hn0 hf1 (by rw [h1h]; exact hg)]
        refine ⟨⟨?_, ?_, ?_, ?_⟩, ?_, ?_, ?_, ?_⟩
        · show sizesOK (putAt r.1.blocks r.2 (adjSize n))
          rw [hput]
          exact q1
        · show List.Chain' okp (putAt r.1.blocks r.2 (adjSize n))
          rw [hput]
          exact q2
        · show r.1.trav = 8 ∨ r.1.trav ∈ startList (putAt r.1.blocks r.2 (adjSize n))
          rcases g3 with g3 | g3
          · exact Or.inl g3
          · refine Or.inr ?_
            rw [hput]
            exact putAt_starts X m Y (adjSize n) gz5 hadjm (gz1 ▸ g3)
        · show r.1.granted = 16 + sumSizes (putAt r.1.blocks r.2 (adjSize n))
          rw [hput, q3, ← gz1, g4, g5, hgr]
          omega
        · exact g6
        · exact g7
        · intro hc
          exact Option.noConfusion hc
        · intro a ha
          injection ha with ha
          subst ha
          constructor
          · rw [gz2]
            have := sumSizes_mod8 hXsz
            omega
          · refine ⟨if 2 * 8 ≤ m.size - adjSize n then (⟨adjSize n, true⟩ : Block)
              else (⟨m.size, true⟩ : Block), ?_, ?_, ?_, ?_⟩
            · show blockAt (putAt r.1.blocks r.2 (adjSize n)) r.2 = _
              rw [hput, gz2]
              exact q4
            · by_cases hs : 2 * 8 ≤ m.size - adjSize n
              · rw [if_pos hs]
              · rw [if_neg hs]
            · by_cases hs : 2 * 8 ≤ m.size - adjSize n
              · rw [if_pos hs]
                simpa using hadj16
              · rw [if_neg hs]
                have hm16 : 16 ≤ m.size := by omega
                simpa using hm16
            · by_cases hs : 2 * 8 ≤ m.size - adjSize n
              · rw [if_pos hs]
              · rw [if_neg hs]
                simpa using hadjm

/-! ### mm_free and mm_realloc preserve the invariant -/

theorem free_master (h : Heap) (p : Nat) (hInv : Inv h) : Inv (mm_free h p) := by
  obtain ⟨hsz, hch, htr, hgr⟩ := hInv
  simp only [mm_free]
  by_cases hp : p = 0
  · rw [if_pos hp]
    exact ⟨hsz, hch, htr, hgr⟩
  · rw [if_neg hp]
    rcases hidx : idxFrom 16 p h.blocks with _ | i
    · exact ⟨hsz, hch, htr, hgr⟩
    · obtain ⟨L, c, R, hbs, hlen, hpaddr⟩ := idxFrom_sound hidx
      have hgetD : h.blocks.getD i prologue = c := by
        rw [hbs, ← hlen]
        exact getD_append_length L c R prologue
      have htake : h.blocks.take i = L := by
        rw [hbs, ← hlen]
        exact List.take_left L (c :: R)
      have hdrop : h.blocks.drop (i + 1) = R := by
        rw [hbs, ← hlen]
        have h1 : (L ++ c :: R).drop L.length = c :: R := List.drop_left L (c :: R)
        have h2 := List.drop_drop 1 L.length (L ++ c :: R)
        rw [h1] at h2
        exact h2.symm
      simp only [hgetD, htake, hdrop]
      have hcOK : 16 ≤ c.size ∧ c.size % 8 = 0 := by
        refine hsz c ?_
        rw [hbs]
        exact List.mem_append_right _ (List.mem_cons_self _ _)
      have hOK : sizesOK (L ++ c :: R) := hbs ▸ hsz
      obtain ⟨hL, hcR⟩ := sizesOK_append.mp hOK
      obtain ⟨hc16, hR⟩ := sizesOK_cons.mp hcR
      obtain ⟨cL, cR, -, -⟩ := chain_decomp (hbs ▸ hch)
      have hstarts : startList (L ++ (⟨c.size, false⟩ : Block) :: R) =
          startList (L ++ c :: R) := by
        rw [startList_decomp, startList_decomp]
      have hco := coalesce_ok L ⟨c.size, false⟩ R h.trav
        (by simpa using hcOK) rfl hL hR cL cR
        (by
          rcases htr with htr | htr
          · exact Or.inl htr
          · refine Or.inr ?_
            rw [hstarts, ← hbs]
            exact htr)
      obtain ⟨c1, c2, c3, c4, -⟩ := hco
      refine ⟨c1, c2, c4, ?_⟩
      show h.granted = 16 + sumSizes (coalesce L ⟨c.size, false⟩ R h.trav).1
      rw [c3, sumSizes_append, sumSizes_cons, block_mk_size]
      rw [hgr, hbs, sumSizes_append, sumSizes_cons]

theorem realloc_inv (h : Heap) (p n : Nat) (hInv : Inv h) (hn : n ≤ 2 ^ 64 - 16) :
    Inv (mm_realloc h p n).2 := by
  simp only [mm_realloc]
  by_cases hn0 : n = 0
  · rw [if_pos hn0]
    exact free_master h p hInv
  · rw [if_neg hn0]
    by_cases hp0 : p = 0
    · rw [if_pos hp0]
      exact (malloc_master h n hInv hn).1
    · rw [if_neg hp0]
      have hm1 : Inv (mm_malloc h n).2 := (malloc_master h n hInv hn).1
      rcases hm : mm_malloc h n with ⟨o, h1⟩
      rw [hm] at hm1
      rcases o with _ | q
      · exact hm1
      · exact free_master { h1 with mem := memcpy h1.mem q p (copySize (sizeAt h1.blocks p) n) } p hm1

/-! ### Initialization and reachable states -/

theorem mm_init_char {cap : Nat} {h : Heap} (heq : mm_init cap = some h) :
    h = ⟨[⟨4096, false⟩], 8, 4112, cap, fun _ => 0⟩ := by
  simp only [mm_init] at heq
  by_cases hc : cap < 16
  · rw [if_pos hc] at heq
    exact Option.noConfusion heq
  · rw [if_neg hc] at heq
    rw [grow_heap_eq ⟨[], 8, 16, cap, fun _ => 0⟩ (CHUNKSIZE / 4) (by decide)] at heq
    by_cases hcap : (16 : Nat) + CHUNKSIZE / 4 * 4 > cap
    · rw [if_pos hcap] at heq
      exact Option.noConfusion heq
    · rw [if_neg hcap] at heq
      injection heq with heq
      rw [← heq]
      rfl

theorem inv_of_reach : ∀ {h : Heap}, Reach h → Inv h := by
  intro h hr
  induction hr with
  | init cap h0 heq =>
    rw [mm_init_char heq]
    refine ⟨?_, ?_, Or.inl rfl, ?_⟩
    · show sizesOK [⟨4096, false⟩]
      decide
    · show noAdjFree [⟨4096, false⟩]
      decide
    · show (4112 : Nat) = 16 + sumSizes [⟨4096, false⟩]
      decide
  | alloc h n hr hn ih => exact (malloc_master h n ih hn).1
  | free h p hr hpf ih => exact free_master h p ih
  | re h p n hr hpf hn ih => exact realloc_inv h p n ih hn

/-! ### Further helper lemmas for the claims -/

theorem malloc_none_eq (h : Heap) (n : Nat) (hInv : Inv h)
    (hfail : (mm_malloc h n).1 = none) : (mm_malloc h n).2 = h := by
  obtain ⟨hsz, hch, htr, hgr⟩ := hInv
  by_cases hn0 : n = 0
  · subst hn0
    simp [mm_malloc]
  · rcases fit_cases h (adjSize n) with ⟨hf1, -⟩ | ⟨hf1, hf2⟩
    · rw [mm_malloc_hit h n hn0 hf1] at hfail
      cases hfail
    · have hstop : (fit h (adjSize n)).2 = h.trav := by
        rw [hf2]
        exact stopAddr_self (sizes_pos hsz) htr
      have h1h : ({ h with trav := (fit h (adjSize n)).2 } : Heap) = h := by
        rw [hstop]
      rcases hg : grow_heap h ((if adjSize n > CHUNKSIZE then adjSize n else CHUNKSIZE) / 4)
        with _ | r
      · rw [mm_malloc_miss_none h n hn0 hf1 (by rw [h1h]; exact hg), h1h]
      · rw [mm_malloc_miss_some h n hn0 hf1 (by rw [h1h]; exact hg)] at hfail
        cases hfail

theorem coalesce_trav_eq (L : List Block) (b : Block) (R : List Block) (trav : Nat)
    (hL : ∀ x ∈ L, 0 < x.size) (_hb : 0 < b.size)
    (ht : trav = 8 ∨ trav ∈ startList (L ++ b :: R)) :
    (coalesce L b R trav).2.2 =
      travAdj trav (coalesce L b R trav).2.1
        (sizeAt (coalesce L b R trav).1 (coalesce L b R trav).2.1) := by
  cases hpa : (L.getLast?.map Block.alloc).getD true with
  | true =>
    cases hna : (R.head?.map Block.alloc).getD true with
    | true =>
      rw [coalesce_case1 L b R trav hpa hna]
      show trav = travAdj trav (16 + sumSizes L) (sizeAt (L ++ b :: R) (16 + sumSizes L))
      rw [sizeAt_intro L b R hL, travAdj]
      refine (if_neg ?_).symm
      rintro ⟨hlt, hgt⟩
      rcases ht with rfl | ht
      · omega
      · rw [startList_decomp] at ht
        rcases List.mem_append.mp ht with h1 | h2
        · obtain ⟨e, he, hte⟩ := List.mem_map.mp h1
          have := mem_annot_addr_lt he hL
          omega
        · rcases List.mem_cons.mp h2 with heq | h3
          · omega
          · obtain ⟨e, he, hte⟩ := List.mem_map.mp h3
            have := mem_annot_addr_ge he
            omega
    | false =>
      obtain ⟨n, R', rfl, hn⟩ : ∃ n R', R = n :: R' ∧ n.alloc = false := by
        cases R with
        | nil => simp at hna
        | cons n R' => exact ⟨n, R', rfl, by simpa using hna⟩
      rw [coalesce_case3 L b n R' trav hpa hn]
      show travAdj trav (16 + sumSizes L) (b.size + n.size) =
        travAdj trav (16 + sumSizes L)
          (sizeAt (L ++ (⟨b.size + n.size, false⟩ : Block) :: R') (16 + sumSizes L))
      rw [sizeAt_intro L _ R' hL]
  | false =>
    obtain ⟨L', p, rfl, hp⟩ : ∃ L' p, L = L' ++ [p] ∧ p.alloc = false := by
      rcases L.eq_nil_or_concat' with rfl | ⟨L', p, rfl⟩
      · simp at hpa
      · refine ⟨L', p, rfl, ?_⟩
        rw [List.getLast?_concat] at hpa
        simpa using hpa
    have hL' : ∀ x ∈ L', 0 < x.size := fun x hx =>
      hL x (List.mem_append_left _ hx)
    cases hna : (R.head?.map Block.alloc).getD true with
    | true =>
      rw [coalesce_case2 L' p b R trav hp hna]
      show travAdj trav (16 + sumSizes L') (p.size + b.size) =
        travAdj trav (16 + sumSizes L')
          (sizeAt (L' ++ (⟨p.size + b.size, false⟩ : Block) :: R) (16 + sumSizes L'))
      rw [sizeAt_intro L' _ R hL']
    | false =>
      obtain ⟨n, R', rfl, hn⟩ : ∃ n R', R = n :: R' ∧ n.alloc = false := by
        cases R with
        | nil => simp at hna
        | cons n R' => exact ⟨n, R', rfl, by simpa using hna⟩
      rw [coalesce_case4 L' p b n R' trav hp hn]
      show travAdj trav (16 + sumSizes L') (p.size + b.size + n.size) =
        travAdj trav (16 + sumSizes L')
          (sizeAt (L' ++ (⟨p.size + b.size + n.size, false⟩ : Block) :: R')
            (16 + sumSizes L'))
      rw [sizeAt_intro L' _ R' hL']

/-! ### Claim C2 -/

/-- C2: after any sequence of legitimate allocator operations starting
from an initialized heap (request sizes small enough that the size
adjustment of line 224 does not wrap), a forward scan of the block list
from the first block to the end sentinel never finds two consecutive free
blocks. -/
theorem no_adjacent_free_of_reach : ∀ h : Heap, Reach h → noAdjFree h.blocks :=
  fun _ hr => (inv_of_reach hr).2.1

theorem no_adjacent_free_witness :
    noAdjFree (mm_free (mm_malloc sampleHeap 100).2 16).blocks :=
  no_adjacent_free_of_reach _
    (Reach.free _ 16 (Reach.alloc _ 100 (Reach.init 100000 _ rfl) (by decide))
      (by decide))

/-! ### Claim C9 -/

/-- C9 as stated is false: on the freshly initialized (reachable) heap the
provider has granted 4112 bytes, but the block sizes between the start and
end sentinels sum to 4096; the 16 bytes of skeleton (alignment padding,
prologue block, epilogue header) are the difference. -/
theorem conservation_cex :
    Reach sampleHeap ∧ sumSizes sampleHeap.blocks ≠ sampleHeap.granted :=
  ⟨Reach.init 100000 _ rfl, by decide⟩

/-- C9 amended: at every observation point the bytes granted by the
provider equal the 16-byte skeleton plus the sum of all block sizes
between the start sentinel and the end sentinel. -/
theorem conservation_with_skeleton : ∀ h : Heap, Reach h →
    h.granted = 16 + sumSizes h.blocks :=
  fun _ hr => (inv_of_reach hr).2.2.2

theorem conservation_with_skeleton_witness :
    sampleHeap.granted = 16 + sumSizes sampleHeap.blocks :=
  conservation_with_skeleton _ (Reach.init 100000 _ rfl)

/-! ### Claim C6 -/

/-- C6: (i) after every coalescing step on a block with a valid cursor,
the new cursor is exactly the line-109 relocation: it moves to the
resulting block's start when it pointed strictly inside the resulting
merged span (and not at its start), and is unchanged otherwise; (ii) after
every allocator operation the cursor refers to a valid block position in
the heap (the prologue `heapL = 8` or a real block start). -/
theorem coalesce_cursor_relocation_and_validity :
    (∀ (L : List Block) (b : Block) (R : List Block) (trav : Nat),
      (∀ x ∈ L, 0 < x.size) → 0 < b.size →
      (trav = 8 ∨ trav ∈ startList (L ++ b :: R)) →
      (coalesce L b R trav).2.2 =
        travAdj trav (coalesce L b R trav).2.1
          (sizeAt (coalesce L b R trav).1 (coalesce L b R trav).2.1)) ∧
    ∀ h : Heap, Reach h → travOK h :=
  ⟨fun L b R trav hL hb ht => coalesce_trav_eq L b R trav hL hb ht,
    fun _ hr => (inv_of_reach hr).2.2.1⟩

theorem coalesce_cursor_witness :
    ((coalesce [] (⟨4096, false⟩ : Block) [] 8).2.2 =
      travAdj 8 (coalesce [] (⟨4096, false⟩ : Block) [] 8).2.1
        (sizeAt (coalesce [] (⟨4096, false⟩ : Block) [] 8).1
          (coalesce [] (⟨4096, false⟩ : Block) [] 8).2.1)) ∧
    travOK sampleHeap :=
  ⟨coalesce_cursor_relocation_and_validity.1 [] ⟨4096, false⟩ [] 8
      (by intro x hx; cases hx) (by decide) (Or.inl rfl),
    coalesce_cursor_relocation_and_validity.2 sampleHeap (Reach.init 100000 _ rfl)⟩

/-! ### Claim C4 -/

/-- C4 as stated is false: `allocate(2^64 - 1)` on the reachable fresh
heap succeeds — the size_t adjustment of line 224 wraps to 8 — and
returns payload address 16, but the block placed there has total size 8,
less than two alignment units. -/
theorem malloc_min_block_size_cex :
    Reach sampleHeap ∧ 0 < 2 ^ 64 - 1 ∧
      (mm_malloc sampleHeap (2 ^ 64 - 1)).1 = some 16 ∧
      sizeAt (mm_malloc sampleHeap (2 ^ 64 - 1)).2.blocks 16 = 8 ∧
      ¬ 2 * 8 ≤ sizeAt (mm_malloc sampleHeap (2 ^ 64 - 1)).2.blocks 16 :=
  ⟨Reach.init 100000 _ rfl, by decide, by decide, by decide, by decide⟩

/-- C4 amended: for every reachable heap and every successful
`allocate(n)` with `0 < n ≤ 2^64 - 16` (the adjustment does not wrap),
the returned payload address is a multiple of the alignment unit 8 and
the allocated block at that address has size at least two alignment
units. -/
theorem malloc_aligned_min_size : ∀ (h : Heap) (n p : Nat), Reach h → 0 < n →
    n ≤ 2 ^ 64 - 16 → (mm_malloc h n).1 = some p →
    p % 8 = 0 ∧ ∃ bk : Block, blockAt (mm_malloc h n).2.blocks p = some bk ∧
      bk.alloc = true ∧ 2 * 8 ≤ bk.size := by
  intro h n p hr hn0 hn hp
  obtain ⟨h1, bk, hb1, hb2, hb3, hb4⟩ :=
    (malloc_master h n (inv_of_reach hr) hn).2.2.2.2 p hp
  exact ⟨h1, bk, hb1, hb2, hb3⟩

theorem malloc_aligned_min_size_witness :
    16 % 8 = 0 ∧ ∃ bk : Block,
      blockAt (mm_malloc sampleHeap 100).2.blocks 16 = some bk ∧
      bk.alloc = true ∧ 2 * 8 ≤ bk.size :=
  malloc_aligned_min_size sampleHeap 100 16 (Reach.init 100000 _ rfl) (by decide)
    (by decide) (by decide)

/-! ### Claim C5 -/

/-- C5: placing an adjusted request into a fitting free block (`put` at
the block's payload address): when the leftover after carving out the
request is at least the minimum block size of two alignment units, the
first `adj` bytes become an allocated block and the remainder becomes a
new free block; otherwise the entire block is marked allocated as-is.
The total of the block sizes is unchanged either way. -/
theorem put_split_spec : ∀ (L : List Block) (c : Block) (R : List Block) (adj : Nat),
    (∀ b ∈ L, 0 < b.size) → c.alloc = false → adj ≤ c.size →
    (putAt (L ++ c :: R) (16 + sumSizes L) adj =
      if 2 * 8 ≤ c.size - adj then
        L ++ (⟨adj, true⟩ : Block) :: (⟨c.size - adj, false⟩ : Block) :: R
      else L ++ (⟨c.size, true⟩ : Block) :: R) ∧
    sumSizes (putAt (L ++ c :: R) (16 + sumSizes L) adj) =
      sumSizes (L ++ c :: R) := by
  intro L c R adj hpos hc hadj
  refine ⟨putAt_eq L c R adj hpos, ?_⟩
  rw [putAt_eq L c R adj hpos]
  by_cases hs : 2 * 8 ≤ c.size - adj
  · rw [if_pos hs]
    simp only [sumSizes_append, sumSizes_cons, block_mk_size]
    omega
  · rw [if_neg hs]
    simp only [sumSizes_append, sumSizes_cons, block_mk_size]

theorem put_split_spec_witness :
    (putAt ([] ++ (⟨4096, false⟩ : Block) :: []) (16 + sumSizes []) 112 =
      if 2 * 8 ≤ (⟨4096, false⟩ : Block).size - 112 then
        [] ++ (⟨112, true⟩ : Block) ::
          (⟨(⟨4096, false⟩ : Block).size - 112, false⟩ : Block) :: []
      else [] ++ (⟨(⟨4096, false⟩ : Block).size, true⟩ : Block) :: []) ∧
    sumSizes (putAt ([] ++ (⟨4096, false⟩ : Block) :: []) (16 + sumSizes []) 112) =
      sumSizes ([] ++ (⟨4096, false⟩ : Block) :: []) :=
  put_split_spec [] ⟨4096, false⟩ [] 112 (by intro b hb; cases hb) rfl (by decide)

/-! ### Claim C7 -/

/-- C7: for `reallocate(ptr, size)` with `ptr != NULL` and `size > 0`,
when the inner allocation fails, `mm_realloc` returns NULL and the heap
is exactly as before the call — in particular the original block is still
allocated with unchanged contents. -/
theorem realloc_fail_preserves_heap : ∀ (h : Heap) (p n : Nat), Inv h → p ≠ 0 →
    0 < n → (mm_malloc h n).1 = none → mm_realloc h p n = (none, h) := by
  intro h p n hInv hp hn hfail
  have h2 := malloc_none_eq h n hInv hfail
  have hmm : mm_malloc h n = (none, h) := by
    rw [← @Prod.mk.eta _ _ (mm_malloc h n), hfail, h2]
  simp only [mm_realloc, if_neg (by omega : ¬ n = 0), if_neg hp, hmm]

theorem realloc_fail_witness : mm_realloc c7heap 16 100 = (none, c7heap) :=
  realloc_fail_preserves_heap c7heap 16 100 (by decide) (by decide) (by decide)
    (by decide)

/-! ### Claim C10 -/

/-- C10: for every requested size greater than SIZE_MAX - 15 the size_t
adjustment `DWORD * ((size + DWORD + (DWORD-1)) / DWORD)` of line 224
wraps modulo 2^64 and yields an adjusted size smaller than the request;
concretely `allocate(2^64 - 1)` on the fresh heap returns a non-NULL
pointer (address 16) to a block of total size 8, whose usable capacity is
smaller than the request. -/
theorem adj_size_overflow :
    (∀ size : Nat, 2 ^ 64 - 16 < size → size < 2 ^ 64 → adjSize size < size) ∧
      (mm_malloc sampleHeap (2 ^ 64 - 1)).1 = some 16 ∧
      sizeAt (mm_malloc sampleHeap (2 ^ 64 - 1)).2.blocks 16 = 8 ∧
      sizeAt (mm_malloc sampleHeap (2 ^ 64 - 1)).2.blocks 16 - 8 < 2 ^ 64 - 1 := by
  refine ⟨?_, by decide, by decide, by decide⟩
  intro size h1 h2
  rw [adjSize, if_neg (by omega)]
  have hmod : (size + 8 + (8 - 1)) % 2 ^ 64 = size + 15 - 2 ^ 64 := by
    rw [show size + 8 + (8 - 1) = size + 15 by omega]
    rw [Nat.mod_eq_sub_mod (by omega), Nat.mod_eq_of_lt (by omega)]
  rw [hmod]
  omega

theorem adj_size_overflow_witness : adjSize (2 ^ 64 - 1) < 2 ^ 64 - 1 :=
  adj_size_overflow.1 (2 ^ 64 - 1) (by decide) (by decide)

/-! ### Claim C1 -/

/-- C1 as stated is false on the general count: for `reallocate(16, 108)`
on the heap holding the 112-byte block of `allocate(100)` — a legitimate
call whose inner allocation succeeds at address 128 — lines 283-285 copy
`copySize(GET_SIZE(HEAD(16)), 108) = min(108, 112) = 108` bytes, not
`min(108, usable 104)`. -/
theorem realloc_copy_count_cex :
    (mm_realloc c1heap 16 108).1 = some 128 ∧
      sizeAt (mm_malloc c1heap 108).2.blocks 16 = 112 ∧
      copySize (sizeAt (mm_malloc c1heap 108).2.blocks 16) 108 = 108 ∧
      108 ≠ min 108 (sizeAt (mm_malloc c1heap 108).2.blocks 16 - 8) :=
  ⟨by decide, by decide, by decide, by decide⟩

/-- C1 amended: the number of bytes `mm_realloc` copies is
`min(size, old block's TOTAL size)` — header and footer overhead included
— rather than `min(size, usable payload size)`; the concrete shrink test
holds as stated: after `allocate(100)` is filled with a known pattern,
`reallocate(p, 40)` returns a pointer whose first 40 bytes equal the
pattern's first 40 bytes. -/
theorem realloc_copy_min_total_and_shrink_front :
    (∀ oldsize size : Nat, copySize oldsize size = min size oldsize) ∧
      (mm_realloc c1heap 16 40).1 = some 128 ∧
      ∀ i, i < 40 → (mm_realloc c1heap 16 40).2.mem (128 + i) = c1pat i := by
  refine ⟨?_, by decide, by decide⟩
  intro oldsize size
  rw [copySize, Nat.min_def]
  split_ifs <;> omega

theorem realloc_copy_witness :
    copySize 112 108 = min 108 112 ∧
      (mm_realloc c1heap 16 40).2.mem (128 + 5) = c1pat 5 :=
  ⟨realloc_copy_min_total_and_shrink_front.1 112 108,
    realloc_copy_min_total_and_shrink_front.2.2 5 (by decide)⟩

/-! ### Claim C8 -/

/-- C8: when the fit search misses, `mm_malloc` grows the heap by exactly
`max(adjusted size, CHUNKSIZE)` bytes — a whole number of alignment units
— places the request into the freshly grown (and possibly coalesced)
block whose payload address it returns, and propagates NULL (leaving the
heap unchanged) when the provider fails. -/
theorem malloc_miss_grows_by_max : ∀ (h : Heap) (n : Nat), Inv h → 0 < n →
    n ≤ 2 ^ 64 - 16 → (fit h (adjSize n)).1 = none →
    max (adjSize n) CHUNKSIZE % 8 = 0 ∧
    (h.cap < h.granted + max (adjSize n) CHUNKSIZE → mm_malloc h n = (none, h)) ∧
    (h.granted + max (adjSize n) CHUNKSIZE ≤ h.cap →
      (mm_malloc h n).2.granted = h.granted + max (adjSize n) CHUNKSIZE ∧
      ∃ p, (mm_malloc h n).1 = some p ∧
        p = (coalesce h.blocks ⟨max (adjSize n) CHUNKSIZE, false⟩ [] h.trav).2.1 ∧
        ∃ bk : Block, blockAt (mm_malloc h n).2.blocks p = some bk ∧
          bk.alloc = true ∧ adjSize n ≤ bk.size) := by
  intro h n hInv hn0 hn hmiss
  obtain ⟨hadj16, hadj8⟩ := adjSize_ok hn
  obtain ⟨hsz, hch, htr, hgr⟩ := hInv
  have hCH : CHUNKSIZE = 4096 := rfl
  have hn0' : ¬ n = 0 := by omega
  have hmax : (if adjSize n > CHUNKSIZE then adjSize n else CHUNKSIZE) =
      max (adjSize n) CHUNKSIZE := by
    by_cases hc : adjSize n > CHUNKSIZE
    · rw [if_pos hc]
      omega
    · rw [if_neg hc]
      omega
  have hgs8 : max (adjSize n) CHUNKSIZE % 8 = 0 := by
    rw [hCH]
    rw [hCH] at hmax
    omega
  have hgs16 : 16 ≤ max (adjSize n) CHUNKSIZE := by
    rw [hCH]
    omega
  rcases fit_cases h (adjSize n) with ⟨hf1, -⟩ | ⟨-, hf2⟩
  · rw [hmiss] at hf1
    cases hf1
  · have hstop : (fit h (adjSize n)).2 = h.trav := by
      rw [hf2]
      exact stopAddr_self (sizes_pos hsz) htr
    have h1h : ({ h with trav := (fit h (adjSize n)).2 } : Heap) = h := by
      rw [hstop]
    have hw2 : ((if adjSize n > CHUNKSIZE then adjSize n else CHUNKSIZE) / 4) % 2 = 0 := by
      rw [hmax]
      omega
    have hw4 : ((if adjSize n > CHUNKSIZE then adjSize n else CHUNKSIZE) / 4) * 4 =
        max (adjSize n) CHUNKSIZE := by
      rw [hmax]
      omega
    refine ⟨hgs8, ?_, ?_⟩
    · intro hcap
      have hg : grow_heap h
          ((if adjSize n > CHUNKSIZE then adjSize n else CHUNKSIZE) / 4) = none := by
        rw [grow_heap_eq _ _ hw2, if_pos (by rw [hw4]; omega)]
      rw [mm_malloc_miss_none h n hn0' hmiss (by rw [h1h]; exact hg), h1h]
    · intro hcap
      rcases hgrw : grow_heap h
          ((if adjSize n > CHUNKSIZE then adjSize n else CHUNKSIZE) / 4) with _ | r
      · rw [grow_heap_eq _ _ hw2, if_neg (by rw [hw4]; omega)] at hgrw
        cases hgrw
      · obtain ⟨g1, g2, g3, g4, g5, g6, g7, X, m, Y, gz1, gz2, gz3, gz4, gz5⟩ :=
          grow_ok ⟨hsz, hch, htr, hgr⟩ hw2 (by rw [hw4]; omega)
            (by rw [hw4]; exact hgs8) r hgrw
        have hadjm : adjSize n ≤ m.size := by
          rw [hw4] at gz4
          omega
        obtain ⟨q1, q2, q3, q4⟩ := putAt_ok X m Y (adjSize n) gz3 hadjm hadj16 hadj8
          (gz1 ▸ g1) (gz1 ▸ g2)
        have hput : putAt r.1.blocks r.2 (adjSize n) =
            putAt (X ++ m :: Y) (16 + sumSizes X) (adjSize n) := by
          rw [gz1, gz2]
        rw [mm_malloc_miss_some h n hn0' hmiss (by rw [h1h]; exact hgrw)]
        refine ⟨?_, r.2, rfl, ?_, ?_⟩
        · show r.1.granted = h.granted + max (adjSize n) CHUNKSIZE
          rw [g4, hw4]
        · have hgrw2 := hgrw
          rw [grow_heap_eq _ _ hw2, if_neg (by rw [hw4]; omega)] at hgrw2
          injection hgrw2 with hgrw2
          rw [← hw4, ← hgrw2]
        · refine ⟨if 2 * 8 ≤ m.size - adjSize n then (⟨adjSize n, true⟩ : Block)
            else (⟨m.size, true⟩ : Block), ?_, ?_, ?_⟩
          · show blockAt (putAt r.1.blocks r.2 (adjSize n)) r.2 = _
            rw [hput, gz2]
            exact q4
          · by_cases hs : 2 * 8 ≤ m.size - adjSize n
            · rw [if_pos hs]
            · rw [if_neg hs]
          · by_cases hs : 2 * 8 ≤ m.size - adjSize n
            · rw [if_pos hs]
            · rw [if_neg hs]
              simpa using hadjm

theorem malloc_miss_witness :
    (mm_malloc c8heap 100).2.granted = c8heap.granted + max (adjSize 100) CHUNKSIZE :=
  ((malloc_miss_grows_by_max c8heap 100 (by decide) (by decide) (by decide)
    (by decide)).2.2 (by decide)).1

/-! ### Claim C3 -/

theorem option_map_or {α β : Type} (f : α → β) (x y : Option α) :
    (x.or y).map f = (Option.map f x).or (Option.map f y) := by
  cases x <;> rfl

theorem dropWhile_annot8 (bs : List Block) :
    (annot 16 bs).dropWhile (fun e => decide (e.1 < 8)) = annot 16 bs := by
  cases hbs : annot 16 bs with
  | nil => rfl
  | cons e t =>
    have hmem : e ∈ annot 16 bs := by
      rw [hbs]
      exact List.mem_cons_self e t
    have h16 : 16 ≤ e.1 := mem_annot_addr_ge hmem
    rw [List.dropWhile_cons, if_neg]
    simp only [decide_eq_true_eq]
    omega

theorem takeWhile_annot8 (bs : List Block) :
    (annot 16 bs).takeWhile (fun e => decide (e.1 < 8)) = [] := by
  cases hbs : annot 16 bs with
  | nil => rfl
  | cons e t =>
    have hmem : e ∈ annot 16 bs := by
      rw [hbs]
      exact List.mem_cons_self e t
    have h16 : 16 ≤ e.1 := mem_annot_addr_ge hmem
    rw [List.takeWhile_cons, if_neg]
    simp only [decide_eq_true_eq]
    omega

/-- C3: the next-fit search of `fit` coincides with its specification —
the first free block of size at least the request, scanning the real
blocks forward from the cursor and then wrapping to scan from the heap's
first real block up to (but not including) the original cursor — and it
returns NULL exactly when no block anywhere satisfies the request. -/
theorem fit_next_fit_characterization :
    ∀ (h : Heap) (adj : Nat), sizesOK h.blocks → travOK h →
      (fit h adj).1 = fitSpec h adj ∧
        ((fit h adj).1 = none ↔
          ∀ e ∈ annot 16 h.blocks, e.2.alloc = true ∨ e.2.size < adj) := by
  intro h adj hsz htr
  have hpro : ¬ ((fun e : Nat × Block => !e.2.alloc && decide (adj ≤ e.2.size))
      (8, prologue) = true) := by
    simp [prologue]
  have hfit1 : (fit h adj).1 =
      (((entries h.blocks).dropWhile (fun e => decide (e.1 < h.trav)) ++
        (entries h.blocks).takeWhile (fun e => decide (e.1 < h.trav))).find?
        (fun e => !e.2.alloc && decide (adj ≤ e.2.size))).map Prod.fst := by
    simp only [fit, fitLoop_eq_find, List.find?_append, option_map_or]
    rcases hd : ((entries h.blocks).dropWhile (fun e => decide (e.1 < h.trav))).find?
        (fun e => !e.2.alloc && decide (adj ≤ e.2.size)) with _ | e1
    · rcases ht2 : ((entries h.blocks).takeWhile (fun e => decide (e.1 < h.trav))).find?
          (fun e => !e.2.alloc && decide (adj ≤ e.2.size)) with _ | e2
      · rw [hd, ht2]
        rfl
      · rw [hd, ht2]
        rfl
    · rw [hd]
      rfl
  have hrot : ((entries h.blocks).dropWhile (fun e => decide (e.1 < h.trav)) ++
      (entries h.blocks).takeWhile (fun e => decide (e.1 < h.trav))).find?
      (fun e => !e.2.alloc && decide (adj ≤ e.2.size)) =
      ((annot 16 h.blocks).dropWhile (fun e => decide (e.1 < h.trav)) ++
        (annot 16 h.blocks).takeWhile (fun e => decide (e.1 < h.trav))).find?
      (fun e => !e.2.alloc && decide (adj ≤ e.2.size)) := by
    rcases htr with htr | htr
    · rw [htr, entries, List.dropWhile_cons, if_neg (by simp), List.takeWhile_cons,
        if_neg (by simp), List.append_nil,
        @List.find?_cons_of_neg _ (fun e => !e.2.alloc && decide (adj ≤ e.2.size))
          (8, prologue) (annot 16 h.blocks) hpro,
        dropWhile_annot8, takeWhile_annot8, List.append_nil]
    · have h16 : 16 ≤ h.trav := by
        obtain ⟨e, he, hte⟩ := List.mem_map.mp htr
        exact hte ▸ mem_annot_addr_ge he
      rw [entries, List.dropWhile_cons,
        if_pos (by simp only [decide_eq_true_eq]; omega), List.takeWhile_cons,
        if_pos (by simp only [decide_eq_true_eq]; omega), List.find?_append,
        @List.find?_cons_of_neg _ (fun e => !e.2.alloc && decide (adj ≤ e.2.size))
          (8, prologue)
          ((annot 16 h.blocks).takeWhile (fun e => decide (e.1 < h.trav))) hpro,
        ← List.find?_append]
  constructor
  · rw [hfit1, hrot, fitSpec]
    rcases hf : ((annot 16 h.blocks).dropWhile (fun e => decide (e.1 < h.trav)) ++
        (annot 16 h.blocks).takeWhile (fun e => decide (e.1 < h.trav))).find?
        (fun e => !e.2.alloc && decide (adj ≤ e.2.size)) with _ | e
    · rw [hf]
      rfl
    · rw [hf]
      rfl
  · rw [hfit1, hrot]
    constructor
    · intro hnone e he
      have hfnone : ((annot 16 h.blocks).dropWhile (fun e => decide (e.1 < h.trav)) ++
          (annot 16 h.blocks).takeWhile (fun e => decide (e.1 < h.trav))).find?
          (fun e => !e.2.alloc && decide (adj ≤ e.2.size)) = none := by
        rcases hf : ((annot 16 h.blocks).dropWhile (fun e => decide (e.1 < h.trav)) ++
            (annot 16 h.blocks).takeWhile (fun e => decide (e.1 < h.trav))).find?
            (fun e => !e.2.alloc && decide (adj ≤ e.2.size)) with _ | e2
        · exact hf
        · rw [hf] at hnone
          cases hnone
      rw [List.find?_eq_none] at hfnone
      have hmem : e ∈ (annot 16 h.blocks).dropWhile (fun e => decide (e.1 < h.trav)) ++
          (annot 16 h.blocks).takeWhile (fun e => decide (e.1 < h.trav)) := by
        have he2 : e ∈ (annot 16 h.blocks).takeWhile (fun e => decide (e.1 < h.trav)) ++
            (annot 16 h.blocks).dropWhile (fun e => decide (e.1 < h.trav)) := by
          rw [List.takeWhile_append_dropWhile]
          exact he
        rcases List.mem_append.mp he2 with h1 | h2
        · exact List.mem_append_right _ h1
        · exact List.mem_append_left _ h2
      have hp := hfnone e hmem
      simp only [Bool.and_eq_true, Bool.not_eq_true', decide_eq_true_eq] at hp
      rcases hal : e.2.alloc with _ | _
      · right
        rcases Nat.lt_or_ge e.2.size adj with hlt | hge
        · exact hlt
        · exact absurd ⟨hal, hge⟩ hp
      · left
        rfl
    · intro hall
      have hfnone : ((annot 16 h.blocks).dropWhile (fun e => decide (e.1 < h.trav)) ++
          (annot 16 h.blocks).takeWhile (fun e => decide (e.1 < h.trav))).find?
          (fun e => !e.2.alloc && decide (adj ≤ e.2.size)) = none := by
        rw [List.find?_eq_none]
        intro x hx
        have hxan : x ∈ annot 16 h.blocks := by
          rcases List.mem_append.mp hx with h1 | h2
          · exact (List.dropWhile_sublist _).subset h1
          · exact (List.takeWhile_sublist _).subset h2
        have hx2 := hall x hxan
        simp only [Bool.and_eq_true, Bool.not_eq_true', decide_eq_true_eq]
        rintro ⟨ha, hs⟩
        rcases hx2 with h1 | h1
        · rw [h1] at ha
          cases ha
        · omega
      rw [hfnone]
      rfl

theorem fit_characterization_witness :
    (fit sampleHeap 112).1 = fitSpec sampleHeap 112 ∧
      ((fit sampleHeap 112).1 = none ↔
        ∀ e ∈ annot 16 sampleHeap.blocks, e.2.alloc = true ∨ e.2.size < 112) :=
  fit_next_fit_characterization sampleHeap 112 (by decide) (by decide)

end MM
